import Mathlib

/-!
Verification of the efpmd input-file loader (efpmd/src/parse.c).

The C source is shallowly embedded: lines are lists of characters, the
line-oriented stream is a pair of an optional current-line cursor and the
list of remaining raw lines, C doubles are modelled as exact rationals,
and every process-aborting error path is an Except value.
-/

/-- Character used for quoted strings (ASCII 34). -/
def quoteChar : Char := Char.ofNat 34

/-- Model of the C library isspace in the C locale. -/
def isspace (c : Char) : Bool :=
  c = ' ' || c = Char.ofNat 9 || c = Char.ofNat 10 || c = Char.ofNat 11 ||
  c = Char.ofNat 12 || c = Char.ofNat 13

/-- Model of the C library isdigit. -/
def isdigit (c : Char) : Bool :=
  '0' ≤ c && c ≤ '9'

/-- Model of the C library tolower in the C locale: map only ASCII A-Z. -/
def tolower (c : Char) : Char :=
  if 'A' ≤ c ∧ c ≤ 'Z' then Char.ofNat (c.toNat + 32) else c

/-- Lower-casing of a whole line, as done by next_line in parse.c. -/
def lowerLine (l : List Char) : List Char := l.map tolower

/-- Cursor-level model of skip_space in parse.c. -/
def skip_space (l : List Char) : List Char := l.dropWhile isspace

/-- Shorthand used by concrete test inputs. -/
def toL (s : String) : List Char := s.toList

/-- Model of parse_string in parse.c: skip space, then read either a
quoted token (failing on an unterminated quote) or a maximal run of
non-space characters; returns the token and the rest of the cursor. -/
def parse_string (l : List Char) : Option (List Char × List Char) :=
  match skip_space l with
  | [] => none
  | c :: rest =>
    if c = quoteChar then
      match rest.dropWhile (fun d => ¬ d = quoteChar) with
      | [] => none
      | _ :: after => some (rest.takeWhile (fun d => ¬ d = quoteChar), after)
    else
      some ((c :: rest).takeWhile (fun d => ¬ isspace d),
            (c :: rest).dropWhile (fun d => ¬ isspace d))

/-- Numeric value of a run of decimal digits. -/
def natOfDigits (ds : List Char) : Nat :=
  ds.foldl (fun a c => 10 * a + (c.toNat - 48)) 0

/-- Modelled from the spec: the platform locale-independent integer
scanner (strtol, base 10) used by parse_int; decimal forms only.
It skips space, reads an optional sign and a run of digits, and reports
no match (no characters consumed) when no digit is present. -/
def strtol (l : List Char) : Option (Int × List Char) :=
  let p := skip_space l
  let sp : Int × List Char :=
    match p with
    | '-' :: t => (-1, t)
    | '+' :: t => (1, t)
    | _ => (1, p)
  let ds := sp.2.takeWhile isdigit
  if ds = [] then none
  else some (sp.1 * (natOfDigits ds : Int), sp.2.dropWhile isdigit)

/-- Model of parse_int in parse.c. -/
def parse_int (l : List Char) : Option (Int × List Char) := strtol l

/-- Modelled from the spec: the platform locale-independent floating
scanner (strtod) used by parse_double, restricted to ordinary decimal
forms (sign, digits, optional fraction, optional exponent); values are
exact rationals.  No match is reported when no mantissa digit is
consumed, and an exponent marker with no digits is not consumed. -/
def strtod (l : List Char) : Option (ℚ × List Char) :=
  let p := skip_space l
  let sp : ℚ × List Char :=
    match p with
    | '-' :: t => (-1, t)
    | '+' :: t => (1, t)
    | _ => (1, p)
  let d1 := sp.2.takeWhile isdigit
  let q1 := sp.2.dropWhile isdigit
  let fr : List Char × List Char :=
    match q1 with
    | '.' :: t => (t.takeWhile isdigit, t.dropWhile isdigit)
    | _ => ([], q1)
  if d1 = [] ∧ fr.1 = [] then none
  else
    let mant : ℚ := sp.1 * (natOfDigits (d1 ++ fr.1) : ℚ) / ((10 : ℚ) ^ fr.1.length)
    let ex : Option (Int × List Char) :=
      match fr.2 with
      | c :: t =>
        if c = 'e' ∨ c = 'E' then
          let est : Int × List Char :=
            match t with
            | '-' :: u => (-1, u)
            | '+' :: u => (1, u)
            | _ => (1, t)
          let eds := est.2.takeWhile isdigit
          if eds = [] then none
          else some (est.1 * (natOfDigits eds : Int), est.2.dropWhile isdigit)
        else none
      | [] => none
    match ex with
    | some (e, r) => some (mant * (10 : ℚ) ^ e, r)
    | none => some (mant, fr.2)

/-- Model of parse_double in parse.c. -/
def parse_double (l : List Char) : Option (ℚ × List Char) := strtod l

/-- Model of parse_double applied to a stream cursor that may be the
NULL pointer (parse_double returns false when the cursor is NULL). -/
def parse_double_at (p : Option (List Char)) : Option (ℚ × List Char) :=
  match p with
  | none => none
  | some l => parse_double l

/-- Model of parse_enum in parse.c: scan a name/value table in order and
take the first entry whose name is a literal prefix of the cursor,
copying its value and advancing the cursor past exactly the name. -/
def parse_enum {α : Type} : List (List Char × α) → List Char → Option (α × List Char)
  | [], _ => none
  | (n, v) :: t, l =>
    if n.isPrefixOf l then some (v, l.drop n.length) else parse_enum t l

/-- Run type enumeration (enum run_type in the efpmd headers). -/
inductive RunType
  | sp | grad | hess | opt | md
deriving DecidableEq

/-- Coordinate representation enumeration (enum efp_coord_type). -/
inductive CoordType
  | points | xyzabc | rotmat
deriving DecidableEq

/-- Electrostatics damping enumeration (enum efp_elec_damp). -/
inductive ElecDamp
  | screen | overlap | off
deriving DecidableEq

/-- Dispersion damping enumeration (enum efp_disp_damp). -/
inductive DispDamp
  | tt | overlap | off
deriving DecidableEq

/-- Polarization damping enumeration (enum efp_pol_damp). -/
inductive PolDamp
  | tt | off
deriving DecidableEq

/-- Ensemble enumeration (enum ensemble_type in the efpmd headers). -/
inductive Ensemble
  | nve | nvt
deriving DecidableEq

/-- Modelled from the spec: BOHR_RADIUS, the external unit-of-length
constant supplied outside the excerpt (its exact value is irrelevant to
the claims; only that angs maps to one over it). -/
def BOHR_RADIUS : ℚ := 52917721092 / 100000000000

/-- Modelled from the spec: FS_TO_AU, the fixed time-unit constant
supplied outside the excerpt. -/
def FS_TO_AU : ℚ := 10000000000000000 / 241888432650212

/-- Name/value table of parse_run_type in parse.c. -/
def run_type_table : List (List Char × RunType) :=
  [(toL "sp", .sp), (toL "grad", .grad), (toL "hess", .hess),
   (toL "opt", .opt), (toL "md", .md)]

/-- Name/value table of parse_coord in parse.c. -/
def coord_table : List (List Char × CoordType) :=
  [(toL "points", .points), (toL "xyzabc", .xyzabc), (toL "rotmat", .rotmat)]

/-- Name/value table of parse_units in parse.c. -/
def units_table : List (List Char × ℚ) :=
  [(toL "bohr", 1), (toL "angs", 1 / BOHR_RADIUS)]

/-- Name/value table of parse_elec_damp in parse.c. -/
def elec_damp_table : List (List Char × ElecDamp) :=
  [(toL "screen", .screen), (toL "overlap", .overlap), (toL "off", .off)]

/-- Name/value table of parse_disp_damp in parse.c. -/
def disp_damp_table : List (List Char × DispDamp) :=
  [(toL "tt", .tt), (toL "overlap", .overlap), (toL "off", .off)]

/-- Name/value table of parse_pol_damp in parse.c. -/
def pol_damp_table : List (List Char × PolDamp) :=
  [(toL "tt", .tt), (toL "off", .off)]

/-- Name/value table of parse_ensemble in parse.c. -/
def ensemble_table : List (List Char × Ensemble) :=
  [(toL "nve", .nve), (toL "nvt", .nvt)]

/-- Model of parse_run_type in parse.c. -/
def parse_run_type (l : List Char) : Option (RunType × List Char) :=
  parse_enum run_type_table l

/-- Model of parse_coord in parse.c. -/
def parse_coord (l : List Char) : Option (CoordType × List Char) :=
  parse_enum coord_table l

/-- Model of parse_units in parse.c. -/
def parse_units (l : List Char) : Option (ℚ × List Char) :=
  parse_enum units_table l

/-- Model of parse_elec_damp in parse.c. -/
def parse_elec_damp (l : List Char) : Option (ElecDamp × List Char) :=
  parse_enum elec_damp_table l

/-- Model of parse_disp_damp in parse.c. -/
def parse_disp_damp (l : List Char) : Option (DispDamp × List Char) :=
  parse_enum disp_damp_table l

/-- Model of parse_pol_damp in parse.c. -/
def parse_pol_damp (l : List Char) : Option (PolDamp × List Char) :=
  parse_enum pol_damp_table l

/-- Model of parse_ensemble in parse.c. -/
def parse_ensemble (l : List Char) : Option (Ensemble × List Char) :=
  parse_enum ensemble_table l

/-- Modelled from the spec: EFP_TERM_ELEC, one distinct bit of the
active-terms bit set (the efp.h header is not part of the excerpt). -/
def EFP_TERM_ELEC : Nat := 1

/-- Modelled from the spec: EFP_TERM_POL bit flag. -/
def EFP_TERM_POL : Nat := 2

/-- Modelled from the spec: EFP_TERM_DISP bit flag. -/
def EFP_TERM_DISP : Nat := 4

/-- Modelled from the spec: EFP_TERM_XR bit flag. -/
def EFP_TERM_XR : Nat := 8

/-- Keyword/bit table of parse_terms in parse.c, in declaration order. -/
def terms_table : List (List Char × Nat) :=
  [(toL "elec", EFP_TERM_ELEC), (toL "pol", EFP_TERM_POL),
   (toL "disp", EFP_TERM_DISP), (toL "xr", EFP_TERM_XR)]

/-- One iteration of the parse_terms loop body: find the first keyword
of the table that prefixes the cursor, advance past it and skip space. -/
def terms_step (p : List Char) : Option (Nat × List Char) :=
  match terms_table.find? (fun e => e.1.isPrefixOf p) with
  | none => none
  | some (n, v) => some (v, skip_space (p.drop n.length))

/-- Fuelled model of the while loop of parse_terms (each successful step
consumes at least one character, so fuel equal to the cursor length plus
one is always enough). -/
def termsLoop : Nat → List Char → Nat → Option (Nat × List Char)
  | _, [], acc => some (acc, [])
  | 0, _ :: _, _ => none
  | f + 1, p, acc =>
    match terms_step p with
    | none => none
    | some (v, p') => termsLoop f p' (acc ||| v)

/-- Model of parse_terms in parse.c: OR together matched keyword bits,
stop at end of line, fail on an unmatched token or an empty set. -/
def parse_terms (l : List Char) : Option (Nat × List Char) :=
  match termsLoop (l.length + 1) l 0 with
  | none => none
  | some (t, r) => if t = 0 then none else some (t, r)

/-- One fragment record (struct frag in common.h): name, a twelve-slot
coordinate array and a six-slot velocity array, both zero-initialized. -/
structure Frag where
  name : List Char
  coord : List ℚ
  vel : List ℚ
deriving DecidableEq

/-- The configuration record (struct config in common.h), with the
fragment count represented by the length of the fragment list. -/
structure Config where
  run_type : RunType
  coord_type : CoordType
  units_factor : ℚ
  terms : Nat
  elec_damp : ElecDamp
  disp_damp : DispDamp
  pol_damp : PolDamp
  hess_delta : ℚ
  max_steps : Int
  print_step : Int
  target_temperature : ℚ
  time_step : ℚ
  ensemble_type : Ensemble
  thermostat_tau : ℚ
  opt_tol : ℚ
  fraglib_path : List Char
  userlib_path : List Char
  frags : List Frag
deriving DecidableEq

/-- Typed view of the value a bound option parser writes through the
byte offset of its table entry. -/
inductive FieldVal
  | vRun (v : RunType)
  | vCoord (v : CoordType)
  | vRat (v : ℚ)
  | vInt (v : Int)
  | vTerms (v : Nat)
  | vElecDamp (v : ElecDamp)
  | vDispDamp (v : DispDamp)
  | vPolDamp (v : PolDamp)
  | vEnsemble (v : Ensemble)
  | vStr (v : List Char)
deriving DecidableEq

/-- One row of the config_list table in parse.c: option name, default
text, bound parser, optional validator, and the field written. -/
structure ConfigEntry where
  name : List Char
  default_value : List Char
  parse_fn : List Char → Option (FieldVal × List Char)
  check_fn : Option (FieldVal → Bool)
  setter : Config → FieldVal → Config

/-- Model of int_gt_zero in parse.c. -/
def int_gt_zero : FieldVal → Bool
  | .vInt v => 0 < v
  | _ => false

/-- Model of double_gt_zero in parse.c. -/
def double_gt_zero : FieldVal → Bool
  | .vRat v => 0 < v
  | _ => false

/-- Modelled from the spec: EFP_DATA_DIR, the build-time library data
directory text used as the default fraglib_path (absent from the
excerpt).  The spec fixes nothing about this text beyond its being a
path, so no result below may depend on its spelling: properties of
defaulted paths are proved for an arbitrary directory text (see
set_config_defaults_with), and this concrete placeholder is relied on
only where mere non-emptiness matters (the defaults of C7). -/
def EFP_DATA_DIR : List Char := toL "fraglib"

/-- Wrapper giving parse_run_type the typed-slot interface. -/
def pfRunType (l : List Char) : Option (FieldVal × List Char) :=
  (parse_run_type l).map (fun r => (.vRun r.1, r.2))

/-- Wrapper giving parse_coord the typed-slot interface. -/
def pfCoord (l : List Char) : Option (FieldVal × List Char) :=
  (parse_coord l).map (fun r => (.vCoord r.1, r.2))

/-- Wrapper giving parse_units the typed-slot interface. -/
def pfUnits (l : List Char) : Option (FieldVal × List Char) :=
  (parse_units l).map (fun r => (.vRat r.1, r.2))

/-- Wrapper giving parse_terms the typed-slot interface. -/
def pfTerms (l : List Char) : Option (FieldVal × List Char) :=
  (parse_terms l).map (fun r => (.vTerms r.1, r.2))

/-- Wrapper giving parse_elec_damp the typed-slot interface. -/
def pfElecDamp (l : List Char) : Option (FieldVal × List Char) :=
  (parse_elec_damp l).map (fun r => (.vElecDamp r.1, r.2))

/-- Wrapper giving parse_disp_damp the typed-slot interface. -/
def pfDispDamp (l : List Char) : Option (FieldVal × List Char) :=
  (parse_disp_damp l).map (fun r => (.vDispDamp r.1, r.2))

/-- Wrapper giving parse_pol_damp the typed-slot interface. -/
def pfPolDamp (l : List Char) : Option (FieldVal × List Char) :=
  (parse_pol_damp l).map (fun r => (.vPolDamp r.1, r.2))

/-- Wrapper giving parse_ensemble the typed-slot interface. -/
def pfEnsemble (l : List Char) : Option (FieldVal × List Char) :=
  (parse_ensemble l).map (fun r => (.vEnsemble r.1, r.2))

/-- Wrapper giving parse_double the typed-slot interface. -/
def pfDouble (l : List Char) : Option (FieldVal × List Char) :=
  (parse_double l).map (fun r => (.vRat r.1, r.2))

/-- Wrapper giving parse_int the typed-slot interface. -/
def pfInt (l : List Char) : Option (FieldVal × List Char) :=
  (parse_int l).map (fun r => (.vInt r.1, r.2))

/-- Wrapper giving parse_string the typed-slot interface. -/
def pfString (l : List Char) : Option (FieldVal × List Char) :=
  (parse_string l).map (fun r => (.vStr r.1, r.2))

/-- Model of the config_list table in parse.c, in declaration order. -/
def config_list : List ConfigEntry :=
  [⟨toL "run_type", toL "sp", pfRunType, none,
    fun c v => match v with | .vRun r => { c with run_type := r } | _ => c⟩,
   ⟨toL "coord", toL "xyzabc", pfCoord, none,
    fun c v => match v with | .vCoord r => { c with coord_type := r } | _ => c⟩,
   ⟨toL "units", toL "angs", pfUnits, none,
    fun c v => match v with | .vRat r => { c with units_factor := r } | _ => c⟩,
   ⟨toL "terms", toL "elec pol disp xr", pfTerms, none,
    fun c v => match v with | .vTerms r => { c with terms := r } | _ => c⟩,
   ⟨toL "elec_damp", toL "screen", pfElecDamp, none,
    fun c v => match v with | .vElecDamp r => { c with elec_damp := r } | _ => c⟩,
   ⟨toL "disp_damp", toL "tt", pfDispDamp, none,
    fun c v => match v with | .vDispDamp r => { c with disp_damp := r } | _ => c⟩,
   ⟨toL "pol_damp", toL "tt", pfPolDamp, none,
    fun c v => match v with | .vPolDamp r => { c with pol_damp := r } | _ => c⟩,
   ⟨toL "hess_delta", toL "0.001", pfDouble, some double_gt_zero,
    fun c v => match v with | .vRat r => { c with hess_delta := r } | _ => c⟩,
   ⟨toL "max_steps", toL "100", pfInt, some int_gt_zero,
    fun c v => match v with | .vInt r => { c with max_steps := r } | _ => c⟩,
   ⟨toL "print_step", toL "1", pfInt, some int_gt_zero,
    fun c v => match v with | .vInt r => { c with print_step := r } | _ => c⟩,
   ⟨toL "temperature", toL "300.0", pfDouble, some double_gt_zero,
    fun c v => match v with | .vRat r => { c with target_temperature := r } | _ => c⟩,
   ⟨toL "time_step", toL "1.0", pfDouble, some double_gt_zero,
    fun c v => match v with | .vRat r => { c with time_step := r } | _ => c⟩,
   ⟨toL "ensemble", toL "nve", pfEnsemble, none,
    fun c v => match v with | .vEnsemble r => { c with ensemble_type := r } | _ => c⟩,
   ⟨toL "thermostat_tau", toL "1.0e3", pfDouble, some double_gt_zero,
    fun c v => match v with | .vRat r => { c with thermostat_tau := r } | _ => c⟩,
   ⟨toL "opt_tol", toL "1.0e-4", pfDouble, some double_gt_zero,
    fun c v => match v with | .vRat r => { c with opt_tol := r } | _ => c⟩,
   ⟨toL "fraglib_path", EFP_DATA_DIR, pfString, none,
    fun c v => match v with | .vStr r => { c with fraglib_path := r } | _ => c⟩,
   ⟨toL "userlib_path", toL ".", pfString, none,
    fun c v => match v with | .vStr r => { c with userlib_path := r } | _ => c⟩]

/-- The all-zero record produced by memset in set_config_defaults
(every table-covered field is overwritten by the defaults pass; the
fragment list starts empty). -/
def zero_config : Config :=
  { run_type := .sp, coord_type := .points, units_factor := 0, terms := 0,
    elec_damp := .screen, disp_damp := .tt, pol_damp := .tt, hess_delta := 0,
    max_steps := 0, print_step := 0, target_temperature := 0, time_step := 0,
    ensemble_type := .nve, thermostat_tau := 0, opt_tol := 0,
    fraglib_path := [], userlib_path := [], frags := [] }

/-- Model of set_config_defaults in parse.c: run every table entry's
parser over its own default text and write the result. -/
def set_config_defaults : Config :=
  config_list.foldl
    (fun c e =>
      match e.parse_fn e.default_value with
      | some (v, _) => e.setter c v
      | none => c)
    zero_config

/-- The fatal error conditions raised through error(...) in parse.c. -/
inductive Err
  | incorrectValue (name : List Char)
  | outOfRange (name : List Char)
  | unknownOption
  | unableToReadFragName
  | incorrectFragCoords
  | incorrectFragVel
  | onlyOneOptionPerLine
  | atLeastOneFragment
deriving DecidableEq

/-- The stream of parse.c: the cursor into the current lower-cased line
(none models the NULL buffer/pointer after end of input) and the raw
lines not yet read. -/
structure PStream where
  cur : Option (List Char)
  rest : List (List Char)
deriving DecidableEq

/-- Model of next_line in parse.c: fetch the next raw line, lower-case
it, and reset the cursor to its start; at end of input the buffer and
the cursor become NULL. -/
def next_line (s : PStream) : PStream :=
  match s.rest with
  | [] => ⟨none, []⟩
  | l :: ls => ⟨some (lowerLine l), ls⟩

/-- Model of parse_field in parse.c: find the first table entry whose
name prefixes the line, skip the name and following space, run the bound
parser and the bound validator, and write the parsed value. -/
def parse_field (p : List Char) (cfg : Config) : Except Err (Config × List Char) :=
  match config_list.find? (fun e => e.name.isPrefixOf p) with
  | none => .error .unknownOption
  | some e =>
    match e.parse_fn (skip_space (p.drop e.name.length)) with
    | none => .error (.incorrectValue e.name)
    | some (v, r) =>
      match e.check_fn with
      | some ch => if ch v then .ok (e.setter cfg v, r) else .error (.outOfRange e.name)
      | none => .ok (e.setter cfg v, r)

/-- Row count of the coordinate block (the switch in parse_frag). -/
def n_rows : CoordType → Nat
  | .xyzabc => 1
  | .points => 3
  | .rotmat => 4

/-- Column count of the coordinate block (the switch in parse_frag). -/
def n_cols : CoordType → Nat
  | .xyzabc => 6
  | .points => 3
  | .rotmat => 3

/-- The inner column loop of parse_frag (also used for the velocity
block): parse k doubles from the cursor into consecutive array slots,
raising the given error as soon as one is missing. -/
def parse_n_doubles (err : Err) :
    Option (List Char) → Nat → List ℚ → Nat → Except Err (List ℚ × Option (List Char))
  | p, 0, arr, _ => .ok (arr, p)
  | p, k + 1, arr, idx =>
    match parse_double_at p with
    | none => .error err
    | some (v, r) => parse_n_doubles err (some r) k (arr.set idx v) (idx + 1)

/-- The row loop of parse_frag: for each row parse n_cols doubles from
the current line, then advance to the next line. -/
def parse_rows : PStream → List ℚ → Nat → Nat → Nat → Except Err (List ℚ × PStream)
  | s, arr, _, 0, _ => .ok (arr, s)
  | s, arr, idx, r + 1, cols =>
    match parse_n_doubles .incorrectFragCoords s.cur cols arr idx with
    | .error e => .error e
    | .ok (arr', p') => parse_rows (next_line ⟨p', s.rest⟩) arr' (idx + cols) r cols

/-- The velocity keyword scanned for after a coordinate block. -/
def velKW : List Char := toL "velocity"

/-- Model of parse_frag in parse.c: read the fragment name from the
current cursor, advance a line, read the fixed-shape coordinate block,
then read an optional velocity block. -/
def parse_frag (s : PStream) (ct : CoordType) : Except Err (Frag × PStream) :=
  match s.cur with
  | none => .error .unableToReadFragName
  | some p =>
    match parse_string p with
    | none => .error .unableToReadFragName
    | some (nm, p1) =>
      match parse_rows (next_line ⟨some p1, s.rest⟩) (List.replicate 12 0) 0
          (n_rows ct) (n_cols ct) with
      | .error e => .error e
      | .ok (arr, s2) =>
        match s2.cur with
        | none => .ok (⟨nm, arr, List.replicate 6 0⟩, s2)
        | some q =>
          let q1 := skip_space q
          if velKW.isPrefixOf q1 then
            let s3 := next_line ⟨some q1, s2.rest⟩
            match parse_n_doubles .incorrectFragVel s3.cur 6 (List.replicate 6 0) 0 with
            | .error e => .error e
            | .ok (vl, p2) => .ok (⟨nm, arr, vl⟩, next_line ⟨p2, s3.rest⟩)
          else .ok (⟨nm, arr, List.replicate 6 0⟩, ⟨some q1, s2.rest⟩)

/-- The fragment keyword recognized by the main loop. -/
def fragKW : List Char := toL "fragment"

/-- Fuelled model of the main line loop of parse_config (each iteration
strictly consumes input, so the fuel passed by parse_config is always
enough; the fuel-exhausted case mirrors the loop exit). -/
def runF : Nat → Config → PStream → Except Err Config
  | 0, cfg, _ => .ok cfg
  | fuel + 1, cfg, s =>
    match s.cur with
    | none => .ok cfg
    | some line =>
      if line.head? = some '#' then runF fuel cfg (next_line s)
      else
        let p := skip_space line
        if p = [] then runF fuel cfg (next_line s)
        else if fragKW.isPrefixOf p then
          match parse_frag ⟨some (p.drop fragKW.length), s.rest⟩ cfg.coord_type with
          | .error e => .error e
          | .ok (f, s') => runF fuel { cfg with frags := cfg.frags ++ [f] } s'
        else
          match parse_field p cfg with
          | .error e => .error e
          | .ok (cfg', r) =>
            if skip_space r = [] then runF fuel cfg' (next_line ⟨some r, s.rest⟩)
            else .error .onlyOneOptionPerLine

/-- Scaling of the first n entries of the coordinate array, mirroring
the conversion loop of convert_units. -/
def scale_list : Nat → ℚ → List ℚ → List ℚ
  | _, _, [] => []
  | 0, _, l => l
  | n + 1, k, x :: t => (x * k) :: scale_list n k t

/-- Count of coordinate values converted per fragment (the switch in
convert_units). -/
def n_convert : CoordType → Nat
  | .xyzabc => 3
  | .points => 9
  | .rotmat => 3

/-- Model of convert_units in parse.c: scale the time step and the
thermostat relaxation time by FS_TO_AU and the first n_convert
coordinate values of every fragment by the units factor. -/
def convert_units (c : Config) : Config :=
  { c with
    time_step := FS_TO_AU * c.time_step,
    thermostat_tau := FS_TO_AU * c.thermostat_tau,
    frags := c.frags.map
      (fun f => { f with coord := scale_list (n_convert c.coord_type) c.units_factor f.coord }) }

/-- The post-loop stage of parse_config: fail when no fragment was
declared, otherwise apply the unit conversion. -/
def finalize (r : Except Err Config) : Except Err Config :=
  match r with
  | .error e => .error e
  | .ok cfg =>
    if cfg.frags.length < 1 then .error .atLeastOneFragment
    else .ok (convert_units cfg)

/-- Model of parse_config in parse.c on an already line-split input
file: seed the defaults, read the first line, run the main loop, then
check the fragment count and convert units. -/
def parse_config (lines : List (List Char)) : Except Err Config :=
  finalize (runF (2 * lines.length + 2) set_config_defaults (next_line ⟨none, lines⟩))

instance {ε α : Type} [DecidableEq ε] [DecidableEq α] : DecidableEq (Except ε α) := fun a b =>
  match a, b with
  | .error e, .error f =>
    if h : e = f then .isTrue (by rw [h]) else .isFalse (by simp [h])
  | .ok x, .ok y =>
    if h : x = y then .isTrue (by rw [h]) else .isFalse (by simp [h])
  | .error _, .ok _ => .isFalse (by simp)
  | .ok _, .error _ => .isFalse (by simp)

/-- Longest-match specification of the enumeration matcher on one
table: a success returns the value of a registered name that prefixes
the input, consumes exactly that name, and no registered name that
prefixes the input is longer; a failure means no registered name
prefixes the input. -/
def EnumSpec {α : Type} (T : List (List Char × α)) : Prop :=
  ∀ l : List Char,
    match parse_enum T l with
    | some (v, r) =>
      ∃ n, (n, v) ∈ T ∧ n <+: l ∧ r = l.drop n.length ∧
        ∀ e ∈ T, e.1 <+: l → e.1.length ≤ n.length
    | none => ∀ e ∈ T, ¬ e.1 <+: l

/-- A table is prefix-disjoint when no registered name is a proper
prefix of another registered name. -/
def PrefixDisjoint {α : Type} (T : List (List Char × α)) : Prop :=
  ∀ e₁ ∈ T, ∀ e₂ ∈ T, e₁.1 <+: e₂.1 → e₁.1 = e₂.1

theorem parse_enum_spec {α : Type} (T : List (List Char × α))
    (hpf : PrefixDisjoint T) : EnumSpec T := by
  induction T with
  | nil => intro l; simp [parse_enum]
  | cons e t ih =>
    obtain ⟨n, v⟩ := e
    intro l
    by_cases hp : n.isPrefixOf l
    · have hnp : n <+: l := List.isPrefixOf_iff_prefix.mp hp
      simp only [parse_enum, hp, if_pos]
      refine ⟨n, List.mem_cons_self _ _, hnp, rfl, ?_⟩
      intro e' he' hpre
      rcases List.prefix_or_prefix_of_prefix hpre hnp with h | h
      · exact h.length_le
      · have := hpf (n, v) (List.mem_cons_self _ _) e' he' h
        simp [← this]
    · have hpf' : PrefixDisjoint t := by
        intro e₁ h₁ e₂ h₂
        exact hpf e₁ (List.mem_cons_of_mem _ h₁) e₂ (List.mem_cons_of_mem _ h₂)
      have ihl := ih hpf' l
      simp only [parse_enum, hp, Bool.false_eq_true, if_false]
      cases hpe : parse_enum t l with
      | none =>
        simp only [hpe] at ihl
        intro e' he'
        rcases List.mem_cons.mp he' with rfl | he'
        · simpa [List.isPrefixOf_iff_prefix] using hp
        · exact ihl e' he'
      | some vr =>
        obtain ⟨v', r'⟩ := vr
        simp only [hpe] at ihl
        obtain ⟨n', hmem, hpre, hr, hmax⟩ := ihl
        refine ⟨n', List.mem_cons_of_mem _ hmem, hpre, hr, ?_⟩
        intro e' he' hpre'
        rcases List.mem_cons.mp he' with rfl | he'
        · exact absurd (List.isPrefixOf_iff_prefix.mpr hpre') (by simpa using hp)
        · exact hmax e' he' hpre'

/-- C6: for every enumeration name table used by this program (run
type, coordinate representation, units, the three damping choices,
ensemble) and every input string, the enumeration matcher matches the
longest registered name that is a literal prefix of the input, copies
that entry's value into the output slot, and advances the cursor past
exactly the matched name's text. -/
theorem c6_enum_matcher_longest :
    EnumSpec run_type_table ∧ EnumSpec coord_table ∧ EnumSpec units_table ∧
    EnumSpec elec_damp_table ∧ EnumSpec disp_damp_table ∧
    EnumSpec pol_damp_table ∧ EnumSpec ensemble_table :=
  ⟨parse_enum_spec _ (by unfold PrefixDisjoint; decide), parse_enum_spec _ (by unfold PrefixDisjoint; decide),
   parse_enum_spec _ (by unfold PrefixDisjoint; decide), parse_enum_spec _ (by unfold PrefixDisjoint; decide),
   parse_enum_spec _ (by unfold PrefixDisjoint; decide), parse_enum_spec _ (by unfold PrefixDisjoint; decide),
   parse_enum_spec _ (by unfold PrefixDisjoint; decide)⟩

/-- Witness for C6 at the concrete input md of the run-type table. -/
theorem c6_enum_matcher_longest_witness :
    ∃ n, (n, RunType.md) ∈ run_type_table ∧ n <+: toL "md" ∧
      ([] : List Char) = (toL "md").drop n.length ∧
      ∀ e ∈ run_type_table, e.1 <+: toL "md" → e.1.length ≤ n.length :=
  c6_enum_matcher_longest.1 (toL "md")

/-- Executable check that one option-table entry's own default text is
accepted by its bound parser and passes its bound validator. -/
def entry_default_ok (e : ConfigEntry) : Bool :=
  match e.parse_fn e.default_value with
  | some (v, _) =>
    match e.check_fn with
    | some ch => ch v
    | none => true
  | none => false

/-- C7: for every entry of the option table, running the entry's bound
parse function on the entry's own default text succeeds and the result
satisfies the entry's bound validator whenever one is present; and
these default values are written into the configuration record (by
set_config_defaults) before any input line is read by the loop. -/
theorem c7_defaults_parse_and_validate :
    config_list.all entry_default_ok = true ∧
    ∀ lines : List (List Char),
      parse_config lines =
        finalize (runF (2 * lines.length + 2) set_config_defaults
          (next_line ⟨none, lines⟩)) :=
  ⟨by with_unfolding_all rfl, fun _ => rfl⟩

/-- C8: on a non-comment, non-blank, non-fragment line, once the option
name has been matched, its value parsed and its validator passed
(parse_field returned ok), the load aborts with the
only-one-option-per-line error if and only if a non-space character
remains on the line after skipping spaces; when only spaces remain the
parsed value is retained and the loop continues with the next line. -/
theorem c8_trailing_garbage_iff :
    ∀ (fuel : Nat) (cfg : Config) (line : List Char) (rest : List (List Char))
      (cfg' : Config) (r : List Char),
      line.head? ≠ some '#' →
      skip_space line ≠ [] →
      ¬ fragKW.isPrefixOf (skip_space line) →
      parse_field (skip_space line) cfg = .ok (cfg', r) →
      runF (fuel + 1) cfg ⟨some line, rest⟩ =
        if skip_space r = [] then runF fuel cfg' (next_line ⟨some r, rest⟩)
        else .error .onlyOneOptionPerLine := by
  intro fuel cfg line rest cfg' r h1 h2 h3 h4
  have h3' : fragKW.isPrefixOf (skip_space line) = false := by
    cases h : fragKW.isPrefixOf (skip_space line)
    · rfl
    · exact absurd h h3
  simp only [runF, h1, if_neg, h2, h3', Bool.false_eq_true, if_false, h4]

/-- Witness for C8: a run_type line with a trailing token aborts with
the only-one-option-per-line error. -/
theorem c8_trailing_garbage_iff_witness :
    runF 1 set_config_defaults ⟨some (toL "run_type md x"), []⟩ =
      .error .onlyOneOptionPerLine := by
  have h := c8_trailing_garbage_iff 0 set_config_defaults (toL "run_type md x") []
    { set_config_defaults with run_type := RunType.md } (toL " x")
    (by decide) (by decide) (by decide) (by with_unfolding_all rfl)
  rw [h]
  with_unfolding_all rfl

theorem dropWhile_head_false {p : Char → Bool} :
    ∀ (l : List Char) (c : Char) (cs : List Char),
      l.dropWhile p = c :: cs → p c = false := by
  intro l
  induction l with
  | nil => intro c cs h; simp [List.dropWhile] at h
  | cons a t ih =>
    intro c cs h
    rw [List.dropWhile_cons] at h
    by_cases hp : p a
    · rw [if_pos hp] at h; exact ih c cs h
    · rw [if_neg hp] at h
      cases h
      simpa using hp

theorem skip_space_of_all_space {ws : List Char} (h : ∀ c ∈ ws, isspace c) :
    skip_space ws = [] :=
  List.dropWhile_eq_nil_iff.mpr h

theorem skip_space_append_of {ws rest : List Char}
    (hws : ∀ c ∈ ws, isspace c)
    (hr : rest = [] ∨ ∃ c cs, rest = c :: cs ∧ isspace c = false) :
    skip_space (ws ++ rest) = rest := by
  induction ws with
  | nil =>
    rcases hr with rfl | ⟨c, cs, rfl, hc⟩
    · rfl
    · simp [skip_space, List.dropWhile_cons, hc]
  | cons w ws ih =>
    have hw : isspace w := hws w (List.mem_cons_self _ _)
    have : skip_space (ws ++ rest) = rest :=
      ih (fun c hc => hws c (List.mem_cons_of_mem _ hc))
    simpa [skip_space, List.dropWhile_cons, hw] using this

theorem terms_table_names_ok :
    ∀ e ∈ terms_table, e.1 ≠ [] ∧ isspace (e.1.headD ' ') = false ∧ e.2 ≠ 0 := by
  decide

theorem terms_table_pd : PrefixDisjoint terms_table := by
  unfold PrefixDisjoint; decide

theorem terms_find {n : List Char} {v : Nat} (tail : List Char)
    (hmem : (n, v) ∈ terms_table) :
    terms_table.find? (fun e => e.1.isPrefixOf (n ++ tail)) = some (n, v) := by
  have hself : n.isPrefixOf (n ++ tail) = true :=
    List.isPrefixOf_iff_prefix.mpr ⟨tail, rfl⟩
  fin_cases hmem <;>
    simp_all [terms_table, List.find?, toL, List.isPrefixOf, EFP_TERM_ELEC,
      EFP_TERM_POL, EFP_TERM_DISP, EFP_TERM_XR]

/-- The token sequences actually accepted by the terms parser: one or
more table keywords, each followed by a possibly empty run of spaces.
Used to state the amended form of the terms grammar claim. -/
inductive TermsSeq : List Char → Nat → Prop
  | last (n : List Char) (v : Nat) (ws : List Char) :
      (n, v) ∈ terms_table → (∀ c ∈ ws, isspace c) → TermsSeq (n ++ ws) v
  | cons (n : List Char) (v : Nat) (ws rest : List Char) (t : Nat) :
      (n, v) ∈ terms_table → (∀ c ∈ ws, isspace c) →
      TermsSeq rest t → TermsSeq (n ++ (ws ++ rest)) (v ||| t)

theorem termsLoop_nil (f acc : Nat) : termsLoop f [] acc = some (acc, []) := by
  cases f <;> rfl

theorem termsLoop_step (f : Nat) (c : Char) (cs : List Char) (acc v : Nat)
    (p' : List Char) (hstep : terms_step (c :: cs) = some (v, p')) :
    termsLoop (f + 1) (c :: cs) acc = termsLoop f p' (acc ||| v) := by
  rw [show termsLoop (f + 1) (c :: cs) acc =
      (match terms_step (c :: cs) with
       | none => none
       | some (v, p') => termsLoop f p' (acc ||| v)) from rfl, hstep]

theorem termsLoop_step_none (f : Nat) (c : Char) (cs : List Char) (acc : Nat)
    (hstep : terms_step (c :: cs) = none) :
    termsLoop (f + 1) (c :: cs) acc = none := by
  rw [show termsLoop (f + 1) (c :: cs) acc =
      (match terms_step (c :: cs) with
       | none => none
       | some (v, p') => termsLoop f p' (acc ||| v)) from rfl, hstep]

theorem termsSeq_head {l : List Char} {t : Nat} (h : TermsSeq l t) :
    ∃ c cs, l = c :: cs ∧ isspace c = false := by
  induction h with
  | last n v ws hmem _ =>
    obtain ⟨hne, hhead, -⟩ := terms_table_names_ok _ hmem
    obtain ⟨c, cs, rfl⟩ := List.exists_cons_of_ne_nil hne
    exact ⟨c, cs ++ ws, by simp, by simpa using hhead⟩
  | cons n v ws rest t hmem _ _ _ =>
    obtain ⟨hne, hhead, -⟩ := terms_table_names_ok _ hmem
    obtain ⟨c, cs, rfl⟩ := List.exists_cons_of_ne_nil hne
    exact ⟨c, cs ++ (ws ++ rest), by simp, by simpa using hhead⟩

theorem termsSeq_ne_zero {l : List Char} {t : Nat} (h : TermsSeq l t) : t ≠ 0 := by
  induction h with
  | last n v ws hmem _ =>
    exact (terms_table_names_ok _ hmem).2.2
  | cons n v ws rest t hmem _ _ _ =>
    obtain ⟨-, -, hv⟩ := terms_table_names_ok _ hmem
    intro h0
    apply hv
    apply Nat.eq_of_testBit_eq
    intro i
    have := congrArg (fun m => Nat.testBit m i) h0
    simp only [Nat.testBit_lor, Nat.zero_testBit] at this ⊢
    cases hv' : v.testBit i
    · rfl
    · simp [hv'] at this

theorem termsSeq_step {n : List Char} {v : Nat} (tail : List Char)
    (hmem : (n, v) ∈ terms_table) :
    terms_step (n ++ tail) = some (v, skip_space tail) := by
  rw [terms_step, terms_find tail hmem]
  simp [List.drop_left]

theorem termsLoop_complete {l : List Char} {t : Nat} (h : TermsSeq l t) :
    ∀ (fuel acc : Nat), l.length < fuel →
      termsLoop fuel l acc = some (acc ||| t, []) := by
  induction h with
  | last n v ws hmem hws =>
    intro fuel acc hfuel
    obtain ⟨c, cs, heq, -⟩ := termsSeq_head (TermsSeq.last n v ws hmem hws)
    cases fuel with
    | zero => omega
    | succ f =>
      have hstep : terms_step (c :: cs) = some (v, []) := by
        rw [← heq, termsSeq_step ws hmem, skip_space_of_all_space hws]
      rw [heq, termsLoop_step f c cs acc v [] hstep, termsLoop_nil]
  | cons n v ws rest t hmem hws hrest ih =>
    intro fuel acc hfuel
    obtain ⟨c, cs, heq, -⟩ :=
      termsSeq_head (TermsSeq.cons n v ws rest t hmem hws hrest)
    cases fuel with
    | zero => omega
    | succ f =>
      have hstep : terms_step (c :: cs) = some (v, rest) := by
        rw [← heq, termsSeq_step (ws ++ rest) hmem]
        have hsk : skip_space (ws ++ rest) = rest := by
          apply skip_space_append_of hws
          right
          exact termsSeq_head hrest
        rw [hsk]
      have hlen : rest.length < f := by
        have hne : n ≠ [] := (terms_table_names_ok _ hmem).1
        have h1 : 1 ≤ n.length := by
          cases n with
          | nil => exact absurd rfl hne
          | cons a b => simp
        have h2 : (n ++ (ws ++ rest)).length =
            n.length + ws.length + rest.length := by
          simp [List.length_append]
          omega
        omega
      rw [heq, termsLoop_step f c cs acc v rest hstep, ih f (acc ||| v) hlen,
        Nat.lor_assoc]

theorem terms_step_sound {p : List Char} {v : Nat} {p' : List Char}
    (h : terms_step p = some (v, p')) :
    ∃ n ws, (n, v) ∈ terms_table ∧ p = n ++ (ws ++ p') ∧
      (∀ c ∈ ws, isspace c) ∧
      (p' = [] ∨ ∃ c cs, p' = c :: cs ∧ isspace c = false) := by
  rw [terms_step] at h
  cases hf : terms_table.find? (fun e => e.1.isPrefixOf p) with
  | none => rw [hf] at h; exact absurd h (by simp)
  | some e =>
    rw [hf] at h
    obtain ⟨n, v'⟩ := e
    have hmem := List.mem_of_find?_eq_some hf
    have hpre : n <+: p :=
      List.isPrefixOf_iff_prefix.mp (by simpa using List.find?_some hf)
    obtain ⟨tail, rfl⟩ := hpre
    have hv : v' = v ∧ skip_space ((n ++ tail).drop n.length) = p' := by
      constructor
      · exact congrArg Prod.fst (Option.some.inj h)
      · exact congrArg Prod.snd (Option.some.inj h)
    obtain ⟨rfl, hp'⟩ := hv
    rw [List.drop_left] at hp'
    refine ⟨n, tail.takeWhile isspace, hmem, ?_, ?_, ?_⟩
    · rw [← hp']
      rw [show skip_space tail = tail.dropWhile isspace from rfl,
        List.takeWhile_append_dropWhile]
    · intro c hc; exact List.mem_takeWhile_imp hc
    · rw [← hp']
      cases hd : tail.dropWhile isspace with
      | nil => left; exact hd
      | cons c cs =>
        right
        exact ⟨c, cs, hd, dropWhile_head_false tail c cs hd⟩

theorem termsLoop_sound :
    ∀ (fuel : Nat) (l : List Char) (acc res : Nat) (r : List Char),
      termsLoop fuel l acc = some (res, r) →
      r = [] ∧ ((l = [] ∧ res = acc) ∨ ∃ t, TermsSeq l t ∧ res = acc ||| t) := by
  intro fuel
  induction fuel with
  | zero =>
    intro l acc res r h
    cases l with
    | nil =>
      rw [termsLoop_nil] at h
      obtain ⟨rfl, rfl⟩ : acc = res ∧ [] = r := by
        constructor
        · exact congrArg Prod.fst (Option.some.inj h)
        · exact congrArg Prod.snd (Option.some.inj h)
      exact ⟨rfl, Or.inl ⟨rfl, rfl⟩⟩
    | cons c cs => exact absurd h (by simp [termsLoop])
  | succ f ih =>
    intro l acc res r h
    cases l with
    | nil =>
      rw [termsLoop_nil] at h
      obtain ⟨rfl, rfl⟩ : acc = res ∧ [] = r := by
        constructor
        · exact congrArg Prod.fst (Option.some.inj h)
        · exact congrArg Prod.snd (Option.some.inj h)
      exact ⟨rfl, Or.inl ⟨rfl, rfl⟩⟩
    | cons c cs =>
      cases hstep : terms_step (c :: cs) with
      | none => rw [termsLoop_step_none f c cs acc hstep] at h; exact absurd h (by simp)
      | some vp =>
        obtain ⟨v, p'⟩ := vp
        rw [termsLoop_step f c cs acc v p' hstep] at h
        obtain ⟨rfl, hcase⟩ := ih p' (acc ||| v) res r h
        obtain ⟨n, ws, hmem, heq, hws, -⟩ := terms_step_sound hstep
        refine ⟨rfl, Or.inr ?_⟩
        rcases hcase with ⟨rfl, rfl⟩ | ⟨t', hseq, rfl⟩
        · refine ⟨v, ?_, rfl⟩
          rw [heq, List.append_nil]
          exact TermsSeq.last n v ws hmem hws
        · refine ⟨v ||| t', ?_, Nat.lor_assoc acc v t'⟩
          rw [heq]
          exact TermsSeq.cons n v ws p' t' hmem hws hseq

theorem parse_terms_iff_termsSeq (l : List Char) (t : Nat) (r : List Char) :
    parse_terms l = some (t, r) ↔ (TermsSeq l t ∧ r = []) := by
  constructor
  · intro h
    rw [parse_terms] at h
    cases hl : termsLoop (l.length + 1) l 0 with
    | none => rw [hl] at h; exact absurd h (by simp)
    | some tr =>
      obtain ⟨t₀, r₀⟩ := tr
      rw [hl] at h
      have h : (if t₀ = 0 then none else some (t₀, r₀)) = some (t, r) := h
      by_cases ht0 : t₀ = 0
      · rw [if_pos ht0] at h; exact absurd h (by simp)
      · rw [if_neg ht0] at h
        obtain ⟨rfl, rfl⟩ : t₀ = t ∧ r₀ = r := by
          constructor
          · exact congrArg Prod.fst (Option.some.inj h)
          · exact congrArg Prod.snd (Option.some.inj h)
        obtain ⟨rfl, hcase⟩ := termsLoop_sound _ _ _ _ _ hl
        rcases hcase with ⟨rfl, rfl⟩ | ⟨t', hseq, rfl⟩
        · exact absurd rfl ht0
        · have : (0 : Nat) ||| t' = t' := by simp
          rw [this]
          exact ⟨hseq, rfl⟩
  · rintro ⟨hseq, rfl⟩
    have hloop := termsLoop_complete hseq (l.length + 1) 0 (by omega)
    have hz : (0 : Nat) ||| t = t := by simp
    rw [hz] at hloop
    have hpt : parse_terms l = (if t = 0 then none else some (t, [])) := by
      rw [parse_terms, hloop]
    rw [hpt, if_neg (termsSeq_ne_zero hseq)]

/-- Fuelled splitter of a line into whitespace-separated tokens
(maximal runs of non-space characters). -/
def wsTokensGo : Nat → List Char → List (List Char)
  | 0, _ => []
  | f + 1, l =>
    match skip_space l with
    | [] => []
    | c :: cs =>
      ((c :: cs).takeWhile (fun d => ¬ isspace d)) ::
        wsTokensGo f ((c :: cs).dropWhile (fun d => ¬ isspace d))

/-- Whitespace-separated tokens of a line. -/
def wsTokens (l : List Char) : List (List Char) := wsTokensGo (l.length + 1) l

/-- The terms grammar as the claim states it: a non-empty
whitespace-separated sequence of tokens, each drawn verbatim from the
keyword vocabulary. -/
def spec_terms_accepts (l : List Char) : Bool :=
  !(wsTokens l).isEmpty &&
    (wsTokens l).all (fun t => terms_table.any (fun e => e.1 == t))

/-- C5 counterexample: the input elecdisp is accepted by the terms
parser (yielding the elec and disp bits) although it is not a
whitespace-separated sequence of vocabulary tokens, so the parser does
not accept exactly the whitespace-separated sequences. -/
theorem c5_terms_counterexample :
    parse_terms (toL "elecdisp") = some (EFP_TERM_ELEC ||| EFP_TERM_DISP, []) ∧
    spec_terms_accepts (toL "elecdisp") = false := by
  constructor
  · decide
  · decide

/-- C5 (amended): the terms option parser accepts exactly the sequences
of keyword tokens drawn from elec, pol, disp, xr in which each keyword
is followed by an optional run of whitespace (whitespace between
consecutive keywords is optional, not required), OR-ing each matched
keyword's bit into the active-terms set and stopping at end of line; it
fails if any token fails to match or the resulting set is empty; terms
elec disp yields a set with exactly electrostatics and dispersion, and
the line terms elec foo fails the load. -/
theorem c5_terms_amended :
    (∀ (l : List Char) (t : Nat) (r : List Char),
        parse_terms l = some (t, r) ↔ (TermsSeq l t ∧ r = [])) ∧
    (∀ (l : List Char) (t : Nat) (r : List Char),
        parse_terms l = some (t, r) → t ≠ 0) ∧
    parse_terms (toL "elec disp") = some (EFP_TERM_ELEC ||| EFP_TERM_DISP, []) ∧
    (EFP_TERM_ELEC ||| EFP_TERM_DISP).testBit 0 = true ∧
    (EFP_TERM_ELEC ||| EFP_TERM_DISP).testBit 2 = true ∧
    (EFP_TERM_ELEC ||| EFP_TERM_DISP).testBit 1 = false ∧
    (EFP_TERM_ELEC ||| EFP_TERM_DISP).testBit 3 = false ∧
    parse_field (toL "terms elec foo") set_config_defaults =
      .error (.incorrectValue (toL "terms")) := by
  refine ⟨parse_terms_iff_termsSeq, ?_, by decide, by decide, by decide,
    by decide, by decide, by with_unfolding_all rfl⟩
  intro l t r h
  exact termsSeq_ne_zero ((parse_terms_iff_termsSeq l t r).mp h).1

/-- Witness for C5 at the concrete input pol. -/
theorem c5_terms_amended_witness : TermsSeq (toL "pol") EFP_TERM_POL :=
  (((c5_terms_amended.1 (toL "pol") EFP_TERM_POL []).mp (by decide))).1

/-- Whether k consecutive doubles parse from a cursor. -/
def hasNDoubles : Option (List Char) → Nat → Bool
  | _, 0 => true
  | p, k + 1 =>
    match parse_double_at p with
    | none => false
    | some (_, r) => hasNDoubles (some r) k

/-- The values of k consecutive doubles parsed from a cursor. -/
def nDoublesVals : Option (List Char) → Nat → List ℚ
  | _, 0 => []
  | p, k + 1 =>
    match parse_double_at p with
    | none => []
    | some (v, r) => v :: nDoublesVals (some r) k

/-- The cursor remaining after k consecutive doubles. -/
def nDoublesRest : Option (List Char) → Nat → Option (List Char)
  | p, 0 => p
  | p, k + 1 =>
    match parse_double_at p with
    | none => none
    | some (_, r) => nDoublesRest (some r) k

/-- Sequential writes of a list of values into consecutive array slots,
as the coordinate loops of parse_frag do. -/
def write_vals : List ℚ → Nat → List ℚ → List ℚ
  | arr, _, [] => arr
  | arr, idx, v :: vs => write_vals (arr.set idx v) (idx + 1) vs

theorem parse_n_doubles_ok (err : Err) :
    ∀ (k : Nat) (p : Option (List Char)) (arr : List ℚ) (idx : Nat),
      hasNDoubles p k = true →
      parse_n_doubles err p k arr idx =
        .ok (write_vals arr idx (nDoublesVals p k), nDoublesRest p k) := by
  intro k
  induction k with
  | zero => intro p arr idx _; rfl
  | succ k ih =>
    intro p arr idx h
    cases hpd : parse_double_at p with
    | none => simp [hasNDoubles, hpd] at h
    | some vr =>
      obtain ⟨v, r⟩ := vr
      simp only [hasNDoubles, hpd] at h
      simp only [parse_n_doubles, hpd]
      rw [ih (some r) (arr.set idx v) (idx + 1) h]
      rw [show nDoublesVals p (k + 1) = v :: nDoublesVals (some r) k by
        simp only [nDoublesVals, hpd]]
      rw [show nDoublesRest p (k + 1) = nDoublesRest (some r) k by
        simp only [nDoublesRest, hpd]]
      rfl

theorem parse_n_doubles_err (err : Err) :
    ∀ (k : Nat) (p : Option (List Char)) (arr : List ℚ) (idx : Nat),
      hasNDoubles p k = false →
      parse_n_doubles err p k arr idx = .error err := by
  intro k
  induction k with
  | zero => intro p arr idx h; rw [hasNDoubles] at h; exact absurd h (by simp)
  | succ k ih =>
    intro p arr idx h
    cases hpd : parse_double_at p with
    | none => simp only [parse_n_doubles, hpd]
    | some vr =>
      obtain ⟨v, r⟩ := vr
      simp only [hasNDoubles, hpd] at h
      simp only [parse_n_doubles, hpd]
      rw [ih (some r) (arr.set idx v) (idx + 1) h]

theorem hasNDoubles_length {k : Nat} :
    ∀ {p : Option (List Char)}, hasNDoubles p k = true →
      (nDoublesVals p k).length = k := by
  induction k with
  | zero => intro p _; rfl
  | succ k ih =>
    intro p h
    cases hpd : parse_double_at p with
    | none => simp [hasNDoubles, hpd] at h
    | some vr =>
      obtain ⟨v, r⟩ := vr
      simp only [hasNDoubles, hpd] at h
      simp only [nDoublesVals, hpd, List.length_cons, ih h]

theorem write_vals_append :
    ∀ (vs ws : List ℚ) (arr : List ℚ) (idx : Nat),
      write_vals arr idx (vs ++ ws) =
        write_vals (write_vals arr idx vs) (idx + vs.length) ws := by
  intro vs
  induction vs with
  | nil => intro ws arr idx; simp [write_vals]
  | cons v vs ih =>
    intro ws arr idx
    rw [List.cons_append, write_vals, write_vals, ih]
    congr 1
    simp
    omega

/-- The line feeding the i-th coordinate row read from a stream. -/
def rowSrcAt (s : PStream) : Nat → Option (List Char)
  | 0 => s.cur
  | i + 1 => (s.rest.get? i).map lowerLine

/-- The stream position after consuming r coordinate rows. -/
def afterRows (s : PStream) : Nat → PStream
  | 0 => s
  | r + 1 => afterRows (next_line ⟨none, s.rest⟩) r

/-- The values written by r coordinate rows of cols values each. -/
def rowsVals (s : PStream) : Nat → Nat → List ℚ
  | 0, _ => []
  | r + 1, cols =>
    nDoublesVals s.cur cols ++ rowsVals (next_line ⟨none, s.rest⟩) r cols

theorem next_line_cur_irrelevant (a b : Option (List Char))
    (ls : List (List Char)) : next_line ⟨a, ls⟩ = next_line ⟨b, ls⟩ := by
  cases ls <;> rfl

theorem rowSrcAt_next (x : Option (List Char)) (ls : List (List Char)) (i : Nat) :
    rowSrcAt (next_line ⟨x, ls⟩) i = (ls.get? i).map lowerLine := by
  cases ls with
  | nil => cases i <;> simp [next_line, rowSrcAt]
  | cons l t => cases i <;> simp [next_line, rowSrcAt]

theorem parse_rows_ok :
    ∀ (r cols : Nat) (s : PStream) (arr : List ℚ) (idx : Nat),
      (∀ i, i < r → hasNDoubles (rowSrcAt s i) cols = true) →
      parse_rows s arr idx r cols =
        .ok (write_vals arr idx (rowsVals s r cols), afterRows s r) := by
  intro r
  induction r with
  | zero => intro cols s arr idx _; rfl
  | succ r ih =>
    intro cols s arr idx h
    have h0 : hasNDoubles s.cur cols = true := h 0 (Nat.succ_pos r)
    simp only [parse_rows,
      parse_n_doubles_ok .incorrectFragCoords cols s.cur arr idx h0]
    rw [next_line_cur_irrelevant (nDoublesRest s.cur cols) none s.rest]
    have hrec := ih cols (next_line ⟨none, s.rest⟩) (write_vals arr idx (nDoublesVals s.cur cols)) (idx + cols)
      (by
        intro i hi
        rw [rowSrcAt_next]
        have := h (i + 1) (by omega)
        rw [rowSrcAt] at this
        exact this)
    rw [hrec]
    rw [show rowsVals s (r + 1) cols =
      nDoublesVals s.cur cols ++ rowsVals (next_line ⟨none, s.rest⟩) r cols from rfl]
    rw [write_vals_append, hasNDoubles_length h0]
    rfl

theorem parse_rows_err :
    ∀ (r cols : Nat) (s : PStream) (arr : List ℚ) (idx : Nat),
      (∃ i, i < r ∧ hasNDoubles (rowSrcAt s i) cols = false) →
      parse_rows s arr idx r cols = .error .incorrectFragCoords := by
  intro r
  induction r with
  | zero => intro cols s arr idx h; obtain ⟨i, hi, -⟩ := h; omega
  | succ r ih =>
    intro cols s arr idx h
    cases h0 : hasNDoubles s.cur cols with
    | false =>
      simp only [parse_rows,
        parse_n_doubles_err .incorrectFragCoords cols s.cur arr idx h0]
    | true =>
      simp only [parse_rows,
        parse_n_doubles_ok .incorrectFragCoords cols s.cur arr idx h0]
      rw [next_line_cur_irrelevant (nDoublesRest s.cur cols) none s.rest]
      apply ih
      obtain ⟨i, hi, hbad⟩ := h
      cases i with
      | zero => rw [show rowSrcAt s 0 = s.cur from rfl] at hbad; rw [h0] at hbad; exact absurd hbad (by simp)
      | succ j =>
        refine ⟨j, by omega, ?_⟩
        rw [rowSrcAt_next]
        rw [rowSrcAt] at hbad
        exact hbad

/-- Whether every required coordinate row (per the representation's
shape) parses its full column count from the lines following the
fragment name line. -/
def rows_full (ct : CoordType) (ls : List (List Char)) : Bool :=
  (List.range (n_rows ct)).all
    (fun i => hasNDoubles ((ls.get? i).map lowerLine) (n_cols ct))

/-- Whether the line after the coordinate block does not start a
velocity block (or input ends there). -/
def no_velocity (ct : CoordType) (ls : List (List Char)) : Bool :=
  match (ls.get? (n_rows ct)).map lowerLine with
  | none => true
  | some l => !(velKW.isPrefixOf (skip_space l))

/-- The coordinate array produced by a full coordinate block. -/
def frag_coords (ct : CoordType) (ls : List (List Char)) : List ℚ :=
  write_vals (List.replicate 12 0) 0
    (rowsVals (next_line ⟨none, ls⟩) (n_rows ct) (n_cols ct))

theorem afterRows_cur :
    ∀ (r : Nat) (s : PStream),
      (afterRows s r).cur = rowSrcAt s r ∧
        (afterRows s r).rest = s.rest.drop r := by
  intro r
  induction r with
  | zero => intro s; exact ⟨rfl, rfl⟩
  | succ r ih =>
    intro s
    rw [show afterRows s (r + 1) = afterRows (next_line ⟨none, s.rest⟩) r from rfl]
    obtain ⟨h1, h2⟩ := ih (next_line ⟨none, s.rest⟩)
    constructor
    · rw [h1, rowSrcAt_next]
      rfl
    · rw [h2]
      cases hrest : s.rest with
      | nil => simp [next_line]
      | cons l t => simp [next_line]

theorem all_false_exists {α : Type} {l : List α} {p : α → Bool}
    (h : l.all p = false) : ∃ x ∈ l, p x = false := by
  by_contra hc
  push_neg at hc
  have hall : l.all p = true := by
    rw [List.all_eq_true]
    intro x hx
    cases hxp : p x
    · exact absurd hxp (hc x hx)
    · rfl
  rw [hall] at h
  exact absurd h (by simp)

theorem parse_frag_err_coords {ct : CoordType} {p : List Char}
    {ls : List (List Char)} {name p₁ : List Char}
    (hname : parse_string p = some (name, p₁))
    (hbad : rows_full ct ls = false) :
    parse_frag ⟨some p, ls⟩ ct = .error .incorrectFragCoords := by
  simp only [parse_frag, hname]
  rw [next_line_cur_irrelevant (some p₁) none ls]
  have hex : ∃ i, i < n_rows ct ∧
      hasNDoubles (rowSrcAt (next_line ⟨none, ls⟩) i) (n_cols ct) = false := by
    rw [rows_full] at hbad
    obtain ⟨i, hmem, hi⟩ := all_false_exists hbad
    refine ⟨i, List.mem_range.mp hmem, ?_⟩
    rw [rowSrcAt_next]
    exact hi
  rw [parse_rows_err (n_rows ct) (n_cols ct) _ _ _ hex]

theorem parse_frag_ok {ct : CoordType} {p : List Char}
    {ls : List (List Char)} {name p₁ : List Char}
    (hname : parse_string p = some (name, p₁))
    (hfull : rows_full ct ls = true)
    (hnovel : no_velocity ct ls = true) :
    ∃ s', parse_frag ⟨some p, ls⟩ ct =
      .ok (⟨name, frag_coords ct ls, List.replicate 6 0⟩, s') := by
  simp only [parse_frag, hname]
  rw [next_line_cur_irrelevant (some p₁) none ls]
  have hall : ∀ i, i < n_rows ct →
      hasNDoubles (rowSrcAt (next_line ⟨none, ls⟩) i) (n_cols ct) = true := by
    intro i hi
    rw [rowSrcAt_next]
    rw [rows_full, List.all_eq_true] at hfull
    exact hfull i (List.mem_range.mpr hi)
  rw [parse_rows_ok (n_rows ct) (n_cols ct) _ _ _ hall]
  obtain ⟨hcur, hrest⟩ := afterRows_cur (n_rows ct) (next_line ⟨none, ls⟩)
  rw [rowSrcAt_next] at hcur
  rw [no_velocity] at hnovel
  cases hc : (ls.get? (n_rows ct)).map lowerLine with
  | none =>
    rw [hc] at hcur
    simp only [hcur]
    exact ⟨_, rfl⟩
  | some q =>
    rw [hc] at hcur
    rw [hc] at hnovel
    rw [Bool.not_eq_true'] at hnovel
    simp only [hcur, hnovel, Bool.false_eq_true, if_false]
    exact ⟨_, rfl⟩

theorem parse_rows_junk_ignored {cols : Nat} {ls : List (List Char)}
    {arr : List ℚ} {idx r : Nat} {p q : List Char}
    (hp : hasNDoubles (some p) cols = true)
    (hq : hasNDoubles (some q) cols = true)
    (hv : nDoublesVals (some p) cols = nDoublesVals (some q) cols) :
    parse_rows ⟨some p, ls⟩ arr idx (r + 1) cols =
      parse_rows ⟨some q, ls⟩ arr idx (r + 1) cols := by
  simp only [parse_rows,
    parse_n_doubles_ok .incorrectFragCoords cols (some p) arr idx hp,
    parse_n_doubles_ok .incorrectFragCoords cols (some q) arr idx hq, hv]
  rw [next_line_cur_irrelevant (nDoublesRest (some p) cols)
    (nDoublesRest (some q) cols) ls]

/-- C2: the fragment name is parsed from the fragment keyword line
itself and the coordinate block is read starting on the following
lines, with a shape fixed by the coordinate representation (one row of
6 for xyzabc, three rows of 3 for points, four rows of 3 for rotmat);
a missing value in a required row aborts with the incorrect-coordinates
error, and placing the six coordinate values on the same line as the
name fails rather than parsing as a coordinate block. -/
theorem c2_fragment_block_shape :
    (∀ (ct : CoordType) (p : List Char) (ls : List (List Char))
        (name p₁ : List Char),
        parse_string p = some (name, p₁) →
        (rows_full ct ls = false →
          parse_frag ⟨some p, ls⟩ ct = .error .incorrectFragCoords) ∧
        (rows_full ct ls = true → no_velocity ct ls = true →
          ∃ s', parse_frag ⟨some p, ls⟩ ct =
            .ok (⟨name, frag_coords ct ls, List.replicate 6 0⟩, s'))) ∧
    (n_rows .xyzabc = 1 ∧ n_cols .xyzabc = 6 ∧ n_rows .points = 3 ∧
      n_cols .points = 3 ∧ n_rows .rotmat = 4 ∧ n_cols .rotmat = 3) ∧
    parse_config [toL "coord xyzabc",
        toL "fragment " ++ [quoteChar, 'a', quoteChar] ++ toL " 0 0 0 0 0 0"] =
      .error .incorrectFragCoords := by
  refine ⟨?_, by decide, by with_unfolding_all rfl⟩
  intro ct p ls name p₁ hname
  exact ⟨fun hbad => parse_frag_err_coords hname hbad,
         fun hfull hnovel => parse_frag_ok hname hfull hnovel⟩

/-- Witness for C2: an xyzabc fragment whose only coordinate row holds
three values aborts with the incorrect-coordinates error. -/
theorem c2_fragment_block_shape_witness :
    parse_frag ⟨some (toL "h2o"), [toL "1 2 3"]⟩ .xyzabc =
      .error .incorrectFragCoords :=
  (c2_fragment_block_shape.1 .xyzabc (toL "h2o") [toL "1 2 3"] (toL "h2o") []
    (by with_unfolding_all rfl)).1 (by with_unfolding_all rfl)

/-- C10: extra tokens remaining on a coordinate row after its required
values (and on a velocity row after its six values) are silently
ignored and the load does not abort on them, in contrast to option
lines where trailing tokens abort the load. -/
theorem c10_extra_tokens_ignored :
    (∀ (cols : Nat) (ls : List (List Char)) (arr : List ℚ) (idx r : Nat)
        (p q : List Char),
        hasNDoubles (some p) cols = true → hasNDoubles (some q) cols = true →
        nDoublesVals (some p) cols = nDoublesVals (some q) cols →
        parse_rows ⟨some p, ls⟩ arr idx (r + 1) cols =
          parse_rows ⟨some q, ls⟩ arr idx (r + 1) cols) ∧
    parse_config [toL "fragment a", toL "1 2 3 4 5 6 junk"] =
      parse_config [toL "fragment a", toL "1 2 3 4 5 6"] ∧
    (parse_config [toL "fragment a", toL "1 2 3 4 5 6 junk"]).isOk = true ∧
    parse_config [toL "fragment a", toL "1 2 3 4 5 6", toL "velocity",
        toL "7 8 9 10 11 12 extra"] =
      parse_config [toL "fragment a", toL "1 2 3 4 5 6", toL "velocity",
        toL "7 8 9 10 11 12"] ∧
    (parse_config [toL "fragment a", toL "1 2 3 4 5 6", toL "velocity",
        toL "7 8 9 10 11 12 extra"]).isOk = true ∧
    parse_config [toL "run_type sp junk", toL "fragment a",
        toL "1 2 3 4 5 6"] = .error .onlyOneOptionPerLine := by
  refine ⟨?_, by with_unfolding_all rfl, by with_unfolding_all rfl,
    by with_unfolding_all rfl, by with_unfolding_all rfl,
    by with_unfolding_all rfl⟩
  intro cols ls arr idx r p q hp hq hv
  exact parse_rows_junk_ignored hp hq hv

/-- Witness for C10: a row with a trailing token parses identically to
the same row without it. -/
theorem c10_extra_tokens_ignored_witness :
    parse_rows ⟨some (toL "1 2 3 junk"), []⟩ (List.replicate 12 0) 0 1 3 =
      parse_rows ⟨some (toL "1 2 3"), []⟩ (List.replicate 12 0) 0 1 3 :=
  c10_extra_tokens_ignored.1 3 [] (List.replicate 12 0) 0 0 _ _
    (by with_unfolding_all rfl) (by with_unfolding_all rfl)
    (by with_unfolding_all rfl)

theorem runF_at_end (fuel : Nat) (cfg : Config) (rest : List (List Char)) :
    runF (fuel + 1) cfg ⟨none, rest⟩ = .ok cfg := rfl

theorem runF_comment {line : List Char} (fuel : Nat) (cfg : Config)
    (rest : List (List Char)) (h : line.head? = some '#') :
    runF (fuel + 1) cfg ⟨some line, rest⟩ =
      runF fuel cfg (next_line ⟨some line, rest⟩) := by
  simp only [runF, h, if_pos]

theorem runF_blank {line : List Char} (fuel : Nat) (cfg : Config)
    (rest : List (List Char)) (h1 : ¬ line.head? = some '#')
    (h2 : skip_space line = []) :
    runF (fuel + 1) cfg ⟨some line, rest⟩ =
      runF fuel cfg (next_line ⟨some line, rest⟩) := by
  simp only [runF, h1, if_neg, h2, if_pos]
  simp

theorem runF_fragment {line : List Char} (fuel : Nat) (cfg : Config)
    (rest : List (List Char)) (h1 : ¬ line.head? = some '#')
    (h2 : skip_space line ≠ [])
    (h3 : fragKW.isPrefixOf (skip_space line) = true) :
    runF (fuel + 1) cfg ⟨some line, rest⟩ =
      match parse_frag ⟨some ((skip_space line).drop fragKW.length), rest⟩
          cfg.coord_type with
      | .error e => .error e
      | .ok (f, s') => runF fuel { cfg with frags := cfg.frags ++ [f] } s' := by
  simp only [runF, h1, if_neg, h2, h3, if_pos, if_true]
  simp

theorem runF_option {line : List Char} (fuel : Nat) (cfg : Config)
    (rest : List (List Char)) (h1 : ¬ line.head? = some '#')
    (h2 : skip_space line ≠ [])
    (h3 : fragKW.isPrefixOf (skip_space line) = false) :
    runF (fuel + 1) cfg ⟨some line, rest⟩ =
      match parse_field (skip_space line) cfg with
      | .error e => .error e
      | .ok (cfg', r) =>
        if skip_space r = [] then runF fuel cfg' (next_line ⟨some r, rest⟩)
        else .error .onlyOneOptionPerLine := by
  simp only [runF, h1, if_neg, h2, h3, Bool.false_eq_true, if_false]

theorem setter_frags :
    ∀ e ∈ config_list, ∀ (c : Config) (v : FieldVal),
      (e.setter c v).frags = c.frags := by
  intro e he c v
  fin_cases he <;> cases v <;> rfl

theorem parse_field_shape {p : List Char} {cfg cfg' : Config} {r : List Char}
    (h : parse_field p cfg = .ok (cfg', r)) :
    ∃ e v, e ∈ config_list ∧
      config_list.find? (fun e => e.name.isPrefixOf p) = some e ∧
      e.parse_fn (skip_space (p.drop e.name.length)) = some (v, r) ∧
      cfg' = e.setter cfg v := by
  rw [parse_field] at h
  cases hf : config_list.find? (fun e => e.name.isPrefixOf p) with
  | none => rw [hf] at h; exact absurd h (by simp)
  | some e =>
    rw [hf] at h
    cases hp : e.parse_fn (skip_space (p.drop e.name.length)) with
    | none => simp only [hp] at h; exact absurd h (by simp)
    | some vr =>
      obtain ⟨v, r'⟩ := vr
      simp only [hp] at h
      have hmem := List.mem_of_find?_eq_some hf
      cases hc : e.check_fn with
      | none =>
        simp only [hc] at h
        obtain ⟨h1, h2⟩ : e.setter cfg v = cfg' ∧ r' = r := by
          constructor
          · exact congrArg Prod.fst (Except.ok.inj h)
          · exact congrArg Prod.snd (Except.ok.inj h)
        exact ⟨e, v, hmem, rfl, by rw [hp, h2], h1.symm⟩
      | some ch =>
        simp only [hc] at h
        by_cases hch : ch v = true
        · rw [if_pos hch] at h
          obtain ⟨h1, h2⟩ : e.setter cfg v = cfg' ∧ r' = r := by
            constructor
            · exact congrArg Prod.fst (Except.ok.inj h)
            · exact congrArg Prod.snd (Except.ok.inj h)
          exact ⟨e, v, hmem, rfl, by rw [hp, h2], h1.symm⟩
        · rw [if_neg hch] at h
          exact absurd h (by simp)

theorem parse_field_frags {p : List Char} {cfg cfg' : Config} {r : List Char}
    (h : parse_field p cfg = .ok (cfg', r)) : cfg'.frags = cfg.frags := by
  obtain ⟨e, v, hmem, -, -, hset⟩ := parse_field_shape h
  rw [hset]
  exact setter_frags e hmem cfg v

theorem parse_field_indep {p : List Char} {c₁ c₁' : Config} {r : List Char}
    (h : parse_field p c₁ = .ok (c₁', r)) (c₂ : Config) :
    ∃ c₂', parse_field p c₂ = .ok (c₂', r) := by
  obtain ⟨e, v, hmem, hf, hp, -⟩ := parse_field_shape h
  refine ⟨e.setter c₂ v, ?_⟩
  simp only [parse_field, hf, hp]
  cases hc : e.check_fn with
  | none => rfl
  | some ch =>
    simp only [hc]
    by_cases hch : ch v = true
    · rw [if_pos hch]
    · exfalso
      simp only [parse_field, hf, hp, hc, if_neg hch] at h
      exact absurd h (by simp)

/-- Executable check that a raw input line is a comment, a blank line,
or a valid single-option line (and in particular not a fragment line);
such lines are processed by the loop without error and without touching
the fragment list. -/
def line_ok (l : List Char) : Bool :=
  if (lowerLine l).head? = some '#' then true
  else if skip_space (lowerLine l) = [] then true
  else if fragKW.isPrefixOf (skip_space (lowerLine l)) then false
  else
    match parse_field (skip_space (lowerLine l)) set_config_defaults with
    | .ok (_, r) => (skip_space r).isEmpty
    | .error _ => false

theorem next_line_inv {rest : List (List Char)} (x : Option (List Char))
    (hrest : ∀ l ∈ rest, line_ok l = true) :
    ((next_line ⟨x, rest⟩).cur = none ∨
      ∃ l, line_ok l = true ∧ (next_line ⟨x, rest⟩).cur = some (lowerLine l)) ∧
    (∀ l ∈ (next_line ⟨x, rest⟩).rest, line_ok l = true) := by
  cases rest with
  | nil => exact ⟨Or.inl rfl, by intro l hl; simp [next_line] at hl⟩
  | cons l ls =>
    refine ⟨Or.inr ⟨l, hrest l (List.mem_cons_self _ _), rfl⟩, ?_⟩
    intro l' hl'
    exact hrest l' (List.mem_cons_of_mem _ hl')

theorem runF_no_frag_lines :
    ∀ (fuel : Nat) (cfg : Config) (s : PStream),
      (s.cur = none ∨ ∃ l, line_ok l = true ∧ s.cur = some (lowerLine l)) →
      (∀ l ∈ s.rest, line_ok l = true) →
      ∃ cfg', runF fuel cfg s = .ok cfg' ∧ cfg'.frags = cfg.frags := by
  intro fuel
  induction fuel with
  | zero => intro cfg s _ _; exact ⟨cfg, rfl, rfl⟩
  | succ fuel ih =>
    intro cfg s hcur hrest
    obtain ⟨cur, rest⟩ := s
    rcases hcur with hnone | ⟨l, hok, hsome⟩
    · simp only at hnone
      rw [hnone, runF_at_end]
      exact ⟨cfg, rfl, rfl⟩
    · simp only at hsome hrest
      rw [hsome]
      by_cases hcomment : (lowerLine l).head? = some '#'
      · rw [runF_comment fuel cfg rest hcomment]
        obtain ⟨hc', hr'⟩ := next_line_inv (some (lowerLine l)) hrest
        exact ih cfg _ hc' hr'
      · by_cases hblank : skip_space (lowerLine l) = []
        · rw [runF_blank fuel cfg rest hcomment hblank]
          obtain ⟨hc', hr'⟩ := next_line_inv (some (lowerLine l)) hrest
          exact ih cfg _ hc' hr'
        · rw [line_ok, if_neg hcomment, if_neg hblank] at hok
          by_cases hfrag : fragKW.isPrefixOf (skip_space (lowerLine l)) = true
          · rw [if_pos hfrag] at hok
            exact absurd hok (by simp)
          · have hfrag' : fragKW.isPrefixOf (skip_space (lowerLine l)) = false := by
              cases hb : fragKW.isPrefixOf (skip_space (lowerLine l))
              · rfl
              · exact absurd hb hfrag
            rw [if_neg (by simp [hfrag'])] at hok
            cases hpf : parse_field (skip_space (lowerLine l)) set_config_defaults with
            | error e => rw [hpf] at hok; exact absurd hok (by simp)
            | ok cr =>
              obtain ⟨cdef, r⟩ := cr
              rw [hpf] at hok
              have hok : (skip_space r).isEmpty = true := hok
              have hremp : skip_space r = [] := by
                simpa using hok
              obtain ⟨cfg', hpf'⟩ := parse_field_indep hpf cfg
              rw [runF_option fuel cfg rest hcomment hblank hfrag', hpf']
              rw [show (match (Except.ok (cfg', r) : Except Err (Config × List Char)) with
                | .error e => .error e
                | .ok (cfg', r) =>
                  if skip_space r = [] then runF fuel cfg' (next_line ⟨some r, rest⟩)
                  else .error .onlyOneOptionPerLine) =
                  (if skip_space r = [] then runF fuel cfg' (next_line ⟨some r, rest⟩)
                   else .error .onlyOneOptionPerLine) from rfl]
              rw [if_pos hremp]
              obtain ⟨hc', hr'⟩ := next_line_inv (some r) hrest
              obtain ⟨cfg'', hrun, hfr⟩ := ih cfg' _ hc' hr'
              refine ⟨cfg'', hrun, ?_⟩
              rw [hfr, parse_field_frags hpf']

/-- C4: a file of valid option lines, comments and blanks with no
fragment block aborts with the at-least-one-fragment error, and every
configuration the loader returns has at least one fragment. -/
theorem c4_at_least_one_fragment :
    (∀ lines : List (List Char), (∀ l ∈ lines, line_ok l = true) →
        parse_config lines = .error .atLeastOneFragment) ∧
    (∀ (lines : List (List Char)) (cfg : Config),
        parse_config lines = .ok cfg → 1 ≤ cfg.frags.length) := by
  constructor
  · intro lines hall
    rw [parse_config]
    have hcr : ((next_line ⟨none, lines⟩).cur = none ∨
        ∃ l, line_ok l = true ∧ (next_line ⟨none, lines⟩).cur = some (lowerLine l)) ∧
        (∀ l ∈ (next_line ⟨none, lines⟩).rest, line_ok l = true) :=
      next_line_inv none hall
    obtain ⟨cfg', hrun, hfr⟩ :=
      runF_no_frag_lines (2 * lines.length + 2) set_config_defaults _ hcr.1 hcr.2
    rw [hrun]
    have hnil : cfg'.frags = [] := by
      rw [hfr]
      with_unfolding_all rfl
    have hfin : finalize (.ok cfg') =
        (if cfg'.frags.length < 1 then .error .atLeastOneFragment
         else .ok (convert_units cfg')) := rfl
    rw [hfin, hnil]
    rfl
  · intro lines cfg h
    rw [parse_config] at h
    cases hr : runF (2 * lines.length + 2) set_config_defaults
        (next_line ⟨none, lines⟩) with
    | error e =>
      rw [hr] at h
      have h : (Except.error e : Except Err Config) = .ok cfg := h
      exact absurd h (by simp)
    | ok c =>
      rw [hr] at h
      have h : (if c.frags.length < 1 then (.error .atLeastOneFragment : Except Err Config)
          else .ok (convert_units c)) = .ok cfg := h
      by_cases hlen : c.frags.length < 1
      · rw [if_pos hlen] at h; exact absurd h (by simp)
      · rw [if_neg hlen] at h
        have hcfg : convert_units c = cfg := Except.ok.inj h
        rw [← hcfg]
        have : (convert_units c).frags.length = c.frags.length := by
          rw [convert_units]
          simp
        omega

/-- Witness for C4: a file holding one valid option line and no
fragment aborts with the at-least-one-fragment error. -/
theorem c4_at_least_one_fragment_witness :
    parse_config [toL "run_type md"] = .error .atLeastOneFragment := by
  apply c4_at_least_one_fragment.1
  intro l hl
  fin_cases hl
  with_unfolding_all rfl

theorem scale_list_nil (n : Nat) (k : ℚ) : scale_list n k [] = [] := by
  cases n <;> rfl

theorem scale_list_get? :
    ∀ (l : List ℚ) (n : Nat) (k : ℚ) (j : Nat),
      (scale_list n k l).get? j =
        (l.get? j).map (fun x => if j < n then x * k else x) := by
  intro l
  induction l with
  | nil => intro n k j; rw [scale_list_nil]; simp
  | cons x t ih =>
    intro n k j
    cases n with
    | zero =>
      rw [show scale_list 0 k (x :: t) = x :: t from rfl]
      simp
    | succ n =>
      rw [show scale_list (n + 1) k (x :: t) = (x * k) :: scale_list n k t from rfl]
      cases j with
      | zero => simp
      | succ j =>
        rw [show (((x * k) :: scale_list n k t).get? (j + 1)) =
          (scale_list n k t).get? j from rfl]
        rw [show ((x :: t).get? (j + 1)) = t.get? j from rfl]
        rw [ih n k j]
        simp [Nat.succ_lt_succ_iff]

/-- C1: after a successful load the unit conversion has been applied
exactly once: the returned record is convert_units of the raw parsed
record, convert_units multiplies the first n_convert coordinate values
of every fragment by the units factor (n_convert is 9 for points, 3 for
xyzabc and 3 for rotmat, leaving the remaining slots unscaled) and
multiplies time_step and thermostat_tau by the fixed time-unit constant
FS_TO_AU; the line time_step 2.0 yields a stored time step of 2.0 times
that constant. -/
theorem c1_unit_conversion :
    (∀ c : Config,
      (convert_units c).time_step = FS_TO_AU * c.time_step ∧
      (convert_units c).thermostat_tau = FS_TO_AU * c.thermostat_tau ∧
      (convert_units c).frags.length = c.frags.length ∧
      ∀ i j : Nat,
        ((convert_units c).frags.get? i).map (fun f => f.coord.get? j) =
          (c.frags.get? i).map (fun f => (f.coord.get? j).map
            (fun x => if j < n_convert c.coord_type then x * c.units_factor else x))) ∧
    (n_convert .points = 9 ∧ n_convert .xyzabc = 3 ∧ n_convert .rotmat = 3) ∧
    (∀ (lines : List (List Char)) (c₀ : Config),
      runF (2 * lines.length + 2) set_config_defaults (next_line ⟨none, lines⟩) =
        .ok c₀ →
      1 ≤ c₀.frags.length →
      parse_config lines = .ok (convert_units c₀)) ∧
    (parse_config [toL "time_step 2.0", toL "fragment h2o",
        toL "0 0 0 0 0 0"]).map Config.time_step = .ok (2 * FS_TO_AU) := by
  refine ⟨?_, by decide, ?_, by with_unfolding_all rfl⟩
  · intro c
    refine ⟨rfl, rfl, by rw [convert_units]; simp, ?_⟩
    intro i j
    simp only [convert_units, List.get?_map]
    cases hfi : c.frags.get? i with
    | none => rfl
    | some f =>
      exact congrArg some
        (scale_list_get? f.coord (n_convert c.coord_type) c.units_factor j)
  · intro lines c₀ hrun hlen
    rw [parse_config, hrun]
    have hfin : finalize (.ok c₀) =
        (if c₀.frags.length < 1 then .error .atLeastOneFragment
         else .ok (convert_units c₀)) := rfl
    rw [hfin, if_neg (by omega)]

/-- The raw (pre-conversion) record parsed from the C1 example file. -/
def c1_raw_config : Config :=
  { set_config_defaults with
    time_step := 2,
    frags := [⟨toL "h2o", List.replicate 12 0, List.replicate 6 0⟩] }

/-- Witness for C1 at the concrete time_step 2.0 example file. -/
theorem c1_unit_conversion_witness :
    parse_config [toL "time_step 2.0", toL "fragment h2o",
        toL "0 0 0 0 0 0"] = .ok (convert_units c1_raw_config) :=
  c1_unit_conversion.2.2.1 _ c1_raw_config (by with_unfolding_all rfl)
    (by with_unfolding_all rfl)

theorem char_ofNat_small_toNat {n : Nat} (h : n < 1000) :
    (Char.ofNat n).toNat = n := by
  rw [Char.ofNat, dif_pos (by constructor; omega)]
  rfl

/-- Absence of upper-case ASCII characters in a string. -/
def NoUpperL (l : List Char) : Prop := ∀ c ∈ l, ¬ ('A' ≤ c ∧ c ≤ 'Z')

theorem tolower_not_upper (c : Char) : ¬ ('A' ≤ tolower c ∧ tolower c ≤ 'Z') := by
  rw [tolower]
  by_cases h : 'A' ≤ c ∧ c ≤ 'Z'
  · rw [if_pos h]
    intro hcontra
    obtain ⟨h1, h2⟩ := hcontra
    obtain ⟨ha, hb⟩ := h
    have hc1 : 'A'.toNat ≤ c.toNat := ha
    have hc2 : c.toNat ≤ 'Z'.toNat := hb
    have h90 : c.toNat ≤ 90 := hc2
    have hval : (Char.ofNat (c.toNat + 32)).toNat = c.toNat + 32 :=
      char_ofNat_small_toNat (by omega)
    have h1' : 'A'.toNat ≤ (Char.ofNat (c.toNat + 32)).toNat := h1
    have h2' : (Char.ofNat (c.toNat + 32)).toNat ≤ 'Z'.toNat := h2
    rw [hval] at h1' h2'
    have : 'A'.toNat = 65 := rfl
    have : 'Z'.toNat = 90 := rfl
    omega
  · rw [if_neg h]
    exact h

theorem lower_no_upper (l : List Char) : NoUpperL (lowerLine l) := by
  intro c hc
  rw [lowerLine] at hc
  obtain ⟨d, -, rfl⟩ := List.mem_map.mp hc
  exact tolower_not_upper d

theorem noUpper_subset {l₁ l₂ : List Char} (hsub : ∀ c ∈ l₁, c ∈ l₂)
    (h : NoUpperL l₂) : NoUpperL l₁ :=
  fun c hc => h c (hsub c hc)

theorem tolower_eq_quote {c : Char} (h : tolower c = quoteChar) : c = quoteChar := by
  rw [tolower] at h
  by_cases hb : 'A' ≤ c ∧ c ≤ 'Z'
  · rw [if_pos hb] at h
    exfalso
    obtain ⟨ha, hz⟩ := hb
    have hc1 : 'A'.toNat ≤ c.toNat := ha
    have hc2 : c.toNat ≤ 'Z'.toNat := hz
    have h90 : c.toNat ≤ 90 := hc2
    have hval : (Char.ofNat (c.toNat + 32)).toNat = c.toNat + 32 :=
      char_ofNat_small_toNat (by omega)
    have := congrArg Char.toNat h
    rw [hval] at this
    have hq : quoteChar.toNat = 34 := rfl
    have h65 : 'A'.toNat = 65 := rfl
    omega
  · rwa [if_neg hb] at h

theorem lower_quote_free {l : List Char} (h : quoteChar ∉ l) :
    quoteChar ∉ lowerLine l := by
  intro hc
  rw [lowerLine] at hc
  obtain ⟨d, hd, hdq⟩ := List.mem_map.mp hc
  exact h (tolower_eq_quote hdq ▸ hd)

theorem skip_space_subset (l : List Char) : ∀ c ∈ skip_space l, c ∈ l :=
  fun c hc => (List.dropWhile_sublist _).subset hc

theorem drop_subset (n : Nat) (l : List Char) : ∀ c ∈ l.drop n, c ∈ l :=
  fun c hc => (List.drop_sublist _ _).subset hc

theorem parse_string_name_subset {l name r : List Char}
    (h : parse_string l = some (name, r)) : ∀ c ∈ name, c ∈ l := by
  rw [parse_string] at h
  cases hs : skip_space l with
  | nil => rw [hs] at h; exact absurd h (by simp)
  | cons c0 rest =>
    simp only [hs] at h
    have hsub : ∀ c ∈ c0 :: rest, c ∈ l := by
      intro c hc
      exact skip_space_subset l c (hs ▸ hc)
    by_cases hq : c0 = quoteChar
    · rw [if_pos hq] at h
      cases hd : rest.dropWhile (fun d => ¬ d = quoteChar) with
      | nil => rw [hd] at h; exact absurd h (by simp)
      | cons a after =>
        rw [hd] at h
        have hname : rest.takeWhile (fun d => ¬ d = quoteChar) = name :=
          congrArg Prod.fst (Option.some.inj h)
        intro c hc
        rw [← hname] at hc
        have : c ∈ rest := (List.takeWhile_sublist _).subset hc
        exact hsub c (List.mem_cons_of_mem _ this)
    · rw [if_neg hq] at h
      have hname : (c0 :: rest).takeWhile (fun d => ¬ isspace d) = name :=
        congrArg Prod.fst (Option.some.inj h)
      intro c hc
      rw [← hname] at hc
      exact hsub c ((List.takeWhile_sublist _).subset hc)

theorem parse_string_nonempty_of_quote_free {l name r : List Char}
    (hqf : quoteChar ∉ l) (h : parse_string l = some (name, r)) : name ≠ [] := by
  rw [parse_string] at h
  cases hs : skip_space l with
  | nil => rw [hs] at h; exact absurd h (by simp)
  | cons c0 rest =>
    simp only [hs] at h
    have hc0l : c0 ∈ l := skip_space_subset l c0 (hs ▸ List.mem_cons_self _ _)
    have hq : ¬ c0 = quoteChar := fun he => hqf (he ▸ hc0l)
    rw [if_neg hq] at h
    have hname : (c0 :: rest).takeWhile (fun d => ¬ isspace d) = name :=
      congrArg Prod.fst (Option.some.inj h)
    have hc0 : isspace c0 = false := dropWhile_head_false l c0 rest hs
    intro hn
    rw [hn, List.takeWhile_cons] at hname
    simp [hc0] at hname

theorem next_line_cur_lower (x : Option (List Char)) (rest : List (List Char)) :
    ∀ l, (next_line ⟨x, rest⟩).cur = some l → ∃ raw ∈ rest, l = lowerLine raw := by
  cases rest with
  | nil => intro l h; simp [next_line] at h
  | cons a t =>
    intro l h
    refine ⟨a, List.mem_cons_self _ _, ?_⟩
    have : some (lowerLine a) = some l := h
    exact (Option.some.inj this).symm

theorem next_line_rest_subset (x : Option (List Char)) (rest : List (List Char)) :
    ∀ l ∈ (next_line ⟨x, rest⟩).rest, l ∈ rest := by
  cases rest with
  | nil => intro l h; simp [next_line] at h
  | cons a t =>
    intro l h
    have : l ∈ t := h
    exact List.mem_cons_of_mem _ this

theorem parse_rows_stream :
    ∀ (r cols : Nat) (s : PStream) (arr : List ℚ) (idx : Nat)
      (arr' : List ℚ) (s' : PStream),
      parse_rows s arr idx r cols = .ok (arr', s') →
      (∀ l, s'.cur = some l →
        (s.cur = some l ∨ ∃ raw ∈ s.rest, l = lowerLine raw)) ∧
      (∀ l ∈ s'.rest, l ∈ s.rest) := by
  intro r
  induction r with
  | zero =>
    intro cols s arr idx arr' s' h
    have h : (Except.ok (arr, s) : Except Err (List ℚ × PStream)) = .ok (arr', s') := h
    have hs : s = s' := congrArg Prod.snd (Except.ok.inj h)
    rw [← hs]
    exact ⟨fun l hl => Or.inl hl, fun l hl => hl⟩
  | succ r ih =>
    intro cols s arr idx arr' s' h
    rw [parse_rows] at h
    cases hnd : parse_n_doubles .incorrectFragCoords s.cur cols arr idx with
    | error e => rw [hnd] at h; exact absurd h (by simp)
    | ok ap =>
      obtain ⟨arr₁, p'⟩ := ap
      rw [hnd] at h
      have h : parse_rows (next_line ⟨p', s.rest⟩) arr₁ (idx + cols) r cols =
          .ok (arr', s') := h
      obtain ⟨hcur, hrest⟩ := ih cols _ _ _ _ _ h
      constructor
      · intro l hl
        rcases hcur l hl with hc | ⟨raw, hraw, hrl⟩
        · right
          exact next_line_cur_lower p' s.rest l hc
        · right
          exact ⟨raw, next_line_rest_subset p' s.rest raw hraw, hrl⟩
      · intro l hl
        exact next_line_rest_subset p' s.rest l (hrest l hl)

theorem parse_frag_stream :
    ∀ (s : PStream) (ct : CoordType) (f : Frag) (s' : PStream),
      parse_frag s ct = .ok (f, s') →
      (∃ p p₁, s.cur = some p ∧ parse_string p = some (f.name, p₁)) ∧
      (∀ l, s'.cur = some l → ∃ raw ∈ s.rest, ∀ c ∈ l, c ∈ lowerLine raw) ∧
      (∀ l ∈ s'.rest, l ∈ s.rest) := by
  intro s ct f s' h
  rw [parse_frag] at h
  cases hcur : s.cur with
  | none => simp only [hcur] at h; exact absurd h (by simp)
  | some p =>
    simp only [hcur] at h
    cases hps : parse_string p with
    | none => simp only [hps] at h; exact absurd h (by simp)
    | some np =>
      obtain ⟨nm, p₁⟩ := np
      simp only [hps] at h
      cases hrows : parse_rows (next_line ⟨some p₁, s.rest⟩) (List.replicate 12 0) 0
          (n_rows ct) (n_cols ct) with
      | error e => simp only [hrows] at h; exact absurd h (by simp)
      | ok as2 =>
        obtain ⟨arr, s2⟩ := as2
        simp only [hrows] at h
        obtain ⟨hcur2, hrest2⟩ := parse_rows_stream _ _ _ _ _ _ _ hrows
        have hcur2' : ∀ l, s2.cur = some l → ∃ raw ∈ s.rest, l = lowerLine raw := by
          intro l hl
          rcases hcur2 l hl with hc | ⟨raw, hraw, hrl⟩
          · exact next_line_cur_lower (some p₁) s.rest l hc
          · exact ⟨raw, next_line_rest_subset (some p₁) s.rest raw hraw, hrl⟩
        have hrest2' : ∀ l ∈ s2.rest, l ∈ s.rest := by
          intro l hl
          exact next_line_rest_subset (some p₁) s.rest l (hrest2 l hl)
        cases hc2 : s2.cur with
        | none =>
          simp only [hc2] at h
          obtain ⟨hf, hs'⟩ : (⟨nm, arr, List.replicate 6 0⟩ : Frag) = f ∧ s2 = s' := by
            constructor
            · exact congrArg Prod.fst (Except.ok.inj h)
            · exact congrArg Prod.snd (Except.ok.inj h)
          refine ⟨⟨p, p₁, rfl, by rw [← hf]; exact hps⟩, ?_, ?_⟩
          · intro l hl
            rw [← hs', hc2] at hl
            exact absurd hl (by simp)
          · intro l hl
            rw [← hs'] at hl
            exact hrest2' l hl
        | some q =>
          simp only [hc2] at h
          by_cases hvel : velKW.isPrefixOf (skip_space q) = true
          · rw [if_pos hvel] at h
            cases hnd : parse_n_doubles .incorrectFragVel
                (next_line ⟨some (skip_space q), s2.rest⟩).cur 6
                (List.replicate 6 0) 0 with
            | error e => simp only [hnd] at h; exact absurd h (by simp)
            | ok vp =>
              obtain ⟨vl, p2⟩ := vp
              simp only [hnd] at h
              obtain ⟨hf, hs'⟩ : (⟨nm, arr, vl⟩ : Frag) = f ∧
                  next_line ⟨p2, (next_line ⟨some (skip_space q), s2.rest⟩).rest⟩ = s' := by
                constructor
                · exact congrArg Prod.fst (Except.ok.inj h)
                · exact congrArg Prod.snd (Except.ok.inj h)
              refine ⟨⟨p, p₁, rfl, by rw [← hf]; exact hps⟩, ?_, ?_⟩
              · intro l hl
                rw [← hs'] at hl
                obtain ⟨raw, hraw, hrl⟩ := next_line_cur_lower _ _ l hl
                have hraw2 : raw ∈ s2.rest :=
                  next_line_rest_subset (some (skip_space q)) s2.rest raw hraw
                exact ⟨raw, hrest2' raw hraw2, by rw [hrl]; exact fun c hc => hc⟩
              · intro l hl
                rw [← hs'] at hl
                have h1 := next_line_rest_subset p2 _ l hl
                have h2 := next_line_rest_subset (some (skip_space q)) s2.rest l h1
                exact hrest2' l h2
          · rw [if_neg hvel] at h
            obtain ⟨hf, hs'⟩ : (⟨nm, arr, List.replicate 6 0⟩ : Frag) = f ∧
                (⟨some (skip_space q), s2.rest⟩ : PStream) = s' := by
              constructor
              · exact congrArg Prod.fst (Except.ok.inj h)
              · exact congrArg Prod.snd (Except.ok.inj h)
            refine ⟨⟨p, p₁, rfl, by rw [← hf]; exact hps⟩, ?_, ?_⟩
            · intro l hl
              rw [← hs'] at hl
              have hl : some (skip_space q) = some l := hl
              obtain ⟨raw, hraw, hrl⟩ := hcur2' q hc2
              refine ⟨raw, hraw, ?_⟩
              intro c hc
              rw [← Option.some.inj hl] at hc
              rw [← hrl]
              exact skip_space_subset q c hc
            · intro l hl
              rw [← hs'] at hl
              exact hrest2' l hl

theorem pfString_shape {l : List Char} {v : FieldVal} {r : List Char}
    (h : pfString l = some (v, r)) :
    ∃ sv, v = .vStr sv ∧ parse_string l = some (sv, r) := by
  rw [pfString] at h
  cases hps : parse_string l with
  | none => rw [hps] at h; exact absurd h (by simp)
  | some sr =>
    obtain ⟨sv, r'⟩ := sr
    rw [hps] at h
    have h : (FieldVal.vStr sv, r') = (v, r) := Option.some.inj h
    obtain ⟨h1, h2⟩ : FieldVal.vStr sv = v ∧ r' = r := by
      constructor
      · exact congrArg Prod.fst h
      · exact congrArg Prod.snd h
    exact ⟨sv, h1.symm, by rw [h2]⟩

theorem parse_field_strings {p : List Char} {cfg cfg' : Config} {r : List Char}
    (h : parse_field p cfg = .ok (cfg', r)) :
    cfg'.frags = cfg.frags ∧
    (cfg'.fraglib_path = cfg.fraglib_path ∨ ∀ c ∈ cfg'.fraglib_path, c ∈ p) ∧
    (cfg'.userlib_path = cfg.userlib_path ∨ ∀ c ∈ cfg'.userlib_path, c ∈ p) := by
  obtain ⟨e, v, hmem, hf, hp, hset⟩ := parse_field_shape h
  subst hset
  have hsub : ∀ c ∈ skip_space (p.drop e.name.length), c ∈ p := by
    intro c hc
    exact drop_subset e.name.length p c (skip_space_subset _ c hc)
  fin_cases hmem
  all_goals try (refine ⟨?_, Or.inl ?_, Or.inl ?_⟩ <;> (cases v <;> rfl))
  · obtain ⟨sv, rfl, hps⟩ := pfString_shape hp
    exact ⟨rfl, Or.inr (fun c hc => hsub c (parse_string_name_subset hps c hc)),
      Or.inl rfl⟩
  · obtain ⟨sv, rfl, hps⟩ := pfString_shape hp
    exact ⟨rfl, Or.inl rfl,
      Or.inr (fun c hc => hsub c (parse_string_name_subset hps c hc))⟩

theorem next_line_cur_NU (x : Option (List Char)) (rest : List (List Char)) :
    ∀ l, (next_line ⟨x, rest⟩).cur = some l → NoUpperL l := by
  intro l hl
  obtain ⟨raw, -, rfl⟩ := next_line_cur_lower x rest l hl
  exact lower_no_upper raw

theorem runF_strings_lower (dd : List Char) :
    ∀ (fuel : Nat) (cfg : Config) (s : PStream),
      ((∀ c ∈ cfg.fraglib_path, c ∈ dd) ∨ NoUpperL cfg.fraglib_path) →
      NoUpperL cfg.userlib_path →
      (∀ f ∈ cfg.frags, NoUpperL f.name) →
      (∀ l, s.cur = some l → NoUpperL l) →
      ∀ cfg', runF fuel cfg s = .ok cfg' →
        ((∀ c ∈ cfg'.fraglib_path, c ∈ dd) ∨ NoUpperL cfg'.fraglib_path) ∧
        NoUpperL cfg'.userlib_path ∧
          ∀ f ∈ cfg'.frags, NoUpperL f.name := by
  intro fuel
  induction fuel with
  | zero =>
    intro cfg s h1 h2 h3 _ cfg' h
    have h : (Except.ok cfg : Except Err Config) = .ok cfg' := h
    rw [← Except.ok.inj h]
    exact ⟨h1, h2, h3⟩
  | succ fuel ih =>
    intro cfg s h1 h2 h3 hcur cfg' h
    obtain ⟨cur, rest⟩ := s
    cases cur with
    | none =>
      rw [runF_at_end] at h
      rw [← Except.ok.inj h]
      exact ⟨h1, h2, h3⟩
    | some line =>
      have hline : NoUpperL line := hcur line rfl
      by_cases hcomment : line.head? = some '#'
      · rw [runF_comment fuel cfg rest hcomment] at h
        exact ih cfg _ h1 h2 h3 (next_line_cur_NU _ _) cfg' h
      · by_cases hblank : skip_space line = []
        · rw [runF_blank fuel cfg rest hcomment hblank] at h
          exact ih cfg _ h1 h2 h3 (next_line_cur_NU _ _) cfg' h
        · by_cases hfrag : fragKW.isPrefixOf (skip_space line) = true
          · rw [runF_fragment fuel cfg rest hcomment hblank hfrag] at h
            cases hpf : parse_frag
                ⟨some ((skip_space line).drop fragKW.length), rest⟩
                cfg.coord_type with
            | error e => simp only [hpf] at h; exact absurd h (by simp)
            | ok fs =>
              obtain ⟨f, s'⟩ := fs
              simp only [hpf] at h
              obtain ⟨⟨p, p₁, hp, hps⟩, hcur', -⟩ := parse_frag_stream _ _ _ _ hpf
              have hpl : ∀ c ∈ p, c ∈ line := by
                have : some ((skip_space line).drop fragKW.length) = some p := hp
                rw [← Option.some.inj this]
                intro c hc
                exact skip_space_subset line c
                  (drop_subset fragKW.length (skip_space line) c hc)
              have hnameNU : NoUpperL f.name := by
                apply noUpper_subset (parse_string_name_subset hps)
                exact noUpper_subset hpl hline
              apply ih { cfg with frags := cfg.frags ++ [f] } s' h1 h2 ?hfr ?hcu cfg' h
              case hfr =>
                intro f' hf'
                rcases List.mem_append.mp hf' with hin | hin
                · exact h3 f' hin
                · rw [List.mem_singleton.mp hin]
                  exact hnameNU
              case hcu =>
                intro l hl
                obtain ⟨raw, -, hsub⟩ := hcur' l hl
                exact noUpper_subset hsub (lower_no_upper raw)
          · have hfrag' : fragKW.isPrefixOf (skip_space line) = false := by
              cases hb : fragKW.isPrefixOf (skip_space line)
              · rfl
              · exact absurd hb hfrag
            rw [runF_option fuel cfg rest hcomment hblank hfrag'] at h
            cases hpf : parse_field (skip_space line) cfg with
            | error e => simp only [hpf] at h; exact absurd h (by simp)
            | ok cr =>
              obtain ⟨cfg₂, r⟩ := cr
              simp only [hpf] at h
              obtain ⟨hfr2, hfl2, hul2⟩ := parse_field_strings hpf
              have hfl : (∀ c ∈ cfg₂.fraglib_path, c ∈ dd) ∨
                  NoUpperL cfg₂.fraglib_path := by
                rcases hfl2 with he | hsub
                · rw [he]; exact h1
                · exact Or.inr (noUpper_subset
                    (fun c hc => skip_space_subset line c (hsub c hc)) hline)
              have hul : NoUpperL cfg₂.userlib_path := by
                rcases hul2 with he | hsub
                · rw [he]; exact h2
                · exact noUpper_subset
                    (fun c hc => skip_space_subset line c (hsub c hc)) hline
              have hfrn : ∀ f ∈ cfg₂.frags, NoUpperL f.name := by
                rw [hfr2]; exact h3
              by_cases hsp : skip_space r = []
              · rw [if_pos hsp] at h
                exact ih cfg₂ _ hfl hul hfrn (next_line_cur_NU _ _) cfg' h
              · rw [if_neg hsp] at h
                exact absurd h (by simp)

/-- The defaults record produced by set_config_defaults for a build
whose library data directory text is dataDir: only the fraglib_path
entry depends on that text (its parser is parse_string run over the
default text; on a non-parsing text the field keeps its zeroed value,
where the C assert would abort).  All other entries have their concrete
in-source defaults, so they are taken from set_config_defaults. -/
def set_config_defaults_with (dataDir : List Char) : Config :=
  { set_config_defaults with
    fraglib_path :=
      match parse_string dataDir with
      | some (s, _) => s
      | none => [] }

/-- The loader of parse.c for a build whose library data directory text
is dataDir: identical to parse_config (same loop, same option table)
except for the text behind the EFP_DATA_DIR constant. -/
def parse_config_with (dataDir : List Char) (lines : List (List Char)) :
    Except Err Config :=
  finalize (runF (2 * lines.length + 2) (set_config_defaults_with dataDir)
    (next_line ⟨none, lines⟩))

theorem set_config_defaults_with_default :
    set_config_defaults_with EFP_DATA_DIR = set_config_defaults := by
  with_unfolding_all rfl

/-- C9 counterexample: the default fraglib_path is written into the
record verbatim, bypassing the per-line lower-casing, so for a build
whose data directory text contains an upper-case character a file that
never sets fraglib_path is accepted with an upper-case string stored in
the returned record. -/
theorem c9_fraglib_default_counterexample :
    (parse_config_with (toL "Fraglib")
        [toL "fragment a", toL "1 2 3 4 5 6"]).map Config.fraglib_path =
      .ok (toL "Fraglib") ∧
    ¬ NoUpperL (toL "Fraglib") := by
  constructor
  · with_unfolding_all rfl
  · unfold NoUpperL
    decide

/-- C9 (amended): parse_config is parse_config_with at the build's
EFP_DATA_DIR text, and for every data directory text, every string a
returned configuration stores that was parsed from an input line has no
upper-case character, because each input line is lower-cased before any
parser reads it: every fragment name has no upper-case character, the
userlib_path (default . or input-derived) has no upper-case character,
and the fraglib_path either consists of characters of the build-time
default text (stored verbatim, not lower-cased) or, when set by an
input line (including quoted values), has no upper-case character. -/
theorem c9_input_strings_lowercase :
    (∀ lines : List (List Char),
      parse_config lines = parse_config_with EFP_DATA_DIR lines) ∧
    ∀ (dataDir : List Char) (lines : List (List Char)) (cfg : Config),
      parse_config_with dataDir lines = .ok cfg →
      (∀ f ∈ cfg.frags, NoUpperL f.name) ∧
      ((∀ c ∈ cfg.fraglib_path, c ∈ dataDir) ∨ NoUpperL cfg.fraglib_path) ∧
      NoUpperL cfg.userlib_path := by
  constructor
  · intro lines
    rw [parse_config, parse_config_with, set_config_defaults_with_default]
  · intro dataDir lines cfg h
    rw [parse_config_with] at h
    cases hr : runF (2 * lines.length + 2) (set_config_defaults_with dataDir)
        (next_line ⟨none, lines⟩) with
    | error e =>
      rw [hr] at h
      have h : (Except.error e : Except Err Config) = .ok cfg := h
      exact absurd h (by simp)
    | ok c =>
      rw [hr] at h
      have h : (if c.frags.length < 1 then
          (.error .atLeastOneFragment : Except Err Config)
          else .ok (convert_units c)) = .ok cfg := h
      by_cases hlen : c.frags.length < 1
      · rw [if_pos hlen] at h; exact absurd h (by simp)
      · rw [if_neg hlen] at h
        have hdef1 : (∀ c ∈ (set_config_defaults_with dataDir).fraglib_path,
            c ∈ dataDir) ∨ NoUpperL (set_config_defaults_with dataDir).fraglib_path := by
          left
          have he : (set_config_defaults_with dataDir).fraglib_path =
              (match parse_string dataDir with
               | some (s, _) => s
               | none => []) := rfl
          rw [he]
          cases hps : parse_string dataDir with
          | none => simp
          | some sr =>
            obtain ⟨s, r⟩ := sr
            simpa using parse_string_name_subset hps
        have hdef2 : NoUpperL (set_config_defaults_with dataDir).userlib_path := by
          have he : (set_config_defaults_with dataDir).userlib_path = toL "." := by
            with_unfolding_all rfl
          rw [he]
          unfold NoUpperL
          decide
        have hdef3 : ∀ f ∈ (set_config_defaults_with dataDir).frags,
            NoUpperL f.name := by
          have he : (set_config_defaults_with dataDir).frags = [] := by
            with_unfolding_all rfl
          rw [he]
          intro f hf
          exact absurd hf (by simp)
        obtain ⟨hf, hu, hn⟩ := runF_strings_lower dataDir _
          (set_config_defaults_with dataDir) _
          hdef1 hdef2 hdef3 (next_line_cur_NU _ _) c hr
        rw [← Except.ok.inj h]
        refine ⟨?_, hf, hu⟩
        intro f hfm
        have hfm : f ∈ c.frags.map (fun f =>
            { f with coord :=
              scale_list (n_convert c.coord_type) c.units_factor f.coord }) := hfm
        obtain ⟨f₀, hf₀, rfl⟩ := List.mem_map.mp hfm
        exact hn f₀ hf₀

/-- The raw record parsed from the C9 witness file (upper-case fragment
name in the input, upper-case build data directory text). -/
def c9_param_raw_config : Config :=
  { set_config_defaults_with (toL "Fraglib") with
    frags := [⟨toL "water", write_vals (List.replicate 12 0) 0 [1, 2, 3, 4, 5, 6],
      List.replicate 6 0⟩] }

/-- Witness for the amended C9 at an upper-case build text and a file
whose fragment name is written WATER. -/
theorem c9_input_strings_lowercase_witness :
    NoUpperL (convert_units c9_param_raw_config).userlib_path :=
  (c9_input_strings_lowercase.2 (toL "Fraglib")
    [toL "fragment WATER", toL "1 2 3 4 5 6"]
    (convert_units c9_param_raw_config) (by with_unfolding_all rfl)).2.2

theorem next_line_cur_QF {rest : List (List Char)} (x : Option (List Char))
    (hrest : ∀ l ∈ rest, quoteChar ∉ l) :
    ∀ l, (next_line ⟨x, rest⟩).cur = some l → quoteChar ∉ l := by
  intro l hl
  obtain ⟨raw, hraw, rfl⟩ := next_line_cur_lower x rest l hl
  exact lower_quote_free (hrest raw hraw)

theorem runF_names_nonempty :
    ∀ (fuel : Nat) (cfg : Config) (s : PStream),
      (∀ f ∈ cfg.frags, f.name ≠ []) →
      (∀ l, s.cur = some l → quoteChar ∉ l) →
      (∀ l ∈ s.rest, quoteChar ∉ l) →
      ∀ cfg', runF fuel cfg s = .ok cfg' → ∀ f ∈ cfg'.frags, f.name ≠ [] := by
  intro fuel
  induction fuel with
  | zero =>
    intro cfg s h1 _ _ cfg' h
    have h : (Except.ok cfg : Except Err Config) = .ok cfg' := h
    rw [← Except.ok.inj h]
    exact h1
  | succ fuel ih =>
    intro cfg s h1 hcur hrest cfg' h
    obtain ⟨cur, rest⟩ := s
    have hrest' : ∀ l ∈ rest, quoteChar ∉ l := hrest
    cases cur with
    | none =>
      rw [runF_at_end] at h
      rw [← Except.ok.inj h]
      exact h1
    | some line =>
      have hline : quoteChar ∉ line := hcur line rfl
      by_cases hcomment : line.head? = some '#'
      · rw [runF_comment fuel cfg rest hcomment] at h
        exact ih cfg _ h1 (next_line_cur_QF _ hrest')
          (fun l hl => hrest' l (next_line_rest_subset _ _ l hl)) cfg' h
      · by_cases hblank : skip_space line = []
        · rw [runF_blank fuel cfg rest hcomment hblank] at h
          exact ih cfg _ h1 (next_line_cur_QF _ hrest')
            (fun l hl => hrest' l (next_line_rest_subset _ _ l hl)) cfg' h
        · by_cases hfrag : fragKW.isPrefixOf (skip_space line) = true
          · rw [runF_fragment fuel cfg rest hcomment hblank hfrag] at h
            cases hpf : parse_frag
                ⟨some ((skip_space line).drop fragKW.length), rest⟩
                cfg.coord_type with
            | error e => simp only [hpf] at h; exact absurd h (by simp)
            | ok fs =>
              obtain ⟨f, s'⟩ := fs
              simp only [hpf] at h
              obtain ⟨⟨p, p₁, hp, hps⟩, hcur', hrest2⟩ := parse_frag_stream _ _ _ _ hpf
              have hpQF : quoteChar ∉ p := by
                have : some ((skip_space line).drop fragKW.length) = some p := hp
                rw [← Option.some.inj this]
                intro hc
                exact hline (skip_space_subset line quoteChar
                  (drop_subset fragKW.length (skip_space line) quoteChar hc))
              have hname : f.name ≠ [] :=
                parse_string_nonempty_of_quote_free hpQF hps
              apply ih { cfg with frags := cfg.frags ++ [f] } s' ?hfr ?hcu ?hre cfg' h
              case hfr =>
                intro f' hf'
                rcases List.mem_append.mp hf' with hin | hin
                · exact h1 f' hin
                · rw [List.mem_singleton.mp hin]
                  exact hname
              case hcu =>
                intro l hl
                obtain ⟨raw, hraw, hsub⟩ := hcur' l hl
                intro hc
                exact lower_quote_free (hrest' raw hraw) (hsub quoteChar hc)
              case hre =>
                intro l hl
                exact hrest' l (hrest2 l hl)
          · have hfrag' : fragKW.isPrefixOf (skip_space line) = false := by
              cases hb : fragKW.isPrefixOf (skip_space line)
              · rfl
              · exact absurd hb hfrag
            rw [runF_option fuel cfg rest hcomment hblank hfrag'] at h
            cases hpf : parse_field (skip_space line) cfg with
            | error e => simp only [hpf] at h; exact absurd h (by simp)
            | ok cr =>
              obtain ⟨cfg₂, r⟩ := cr
              simp only [hpf] at h
              have hfrn : ∀ f ∈ cfg₂.frags, f.name ≠ [] := by
                rw [parse_field_frags hpf]; exact h1
              by_cases hsp : skip_space r = []
              · rw [if_pos hsp] at h
                exact ih cfg₂ _ hfrn (next_line_cur_QF _ hrest')
                  (fun l hl => hrest' l (next_line_rest_subset _ _ l hl)) cfg' h
              · rw [if_neg hsp] at h
                exact absurd h (by simp)

/-- C3 counterexample: the loader accepts a file whose fragment name is
written as an empty quoted string and returns a fragment whose name is
empty, so fragment names in returned configurations are not always
non-empty. -/
theorem c3_name_counterexample :
    (parse_config [toL "fragment " ++ [quoteChar, quoteChar],
        toL "1 2 3 4 5 6"]).map (fun c => c.frags.map Frag.name) =
      .ok [[]] := by
  with_unfolding_all rfl

/-- C3 (amended): for every input file the loader accepts in which no
line contains a double-quote character, every fragment's name contains
at least one character (a bare name token is a maximal non-empty run of
non-space characters; only a quoted name can be empty). -/
theorem c3_names_nonempty_amended :
    ∀ (lines : List (List Char)) (cfg : Config),
      (∀ l ∈ lines, quoteChar ∉ l) →
      parse_config lines = .ok cfg →
      ∀ f ∈ cfg.frags, f.name ≠ [] := by
  intro lines cfg hqf h
  rw [parse_config] at h
  cases hr : runF (2 * lines.length + 2) set_config_defaults
      (next_line ⟨none, lines⟩) with
  | error e =>
    rw [hr] at h
    have h : (Except.error e : Except Err Config) = .ok cfg := h
    exact absurd h (by simp)
  | ok c =>
    rw [hr] at h
    have h : (if c.frags.length < 1 then
        (.error .atLeastOneFragment : Except Err Config)
        else .ok (convert_units c)) = .ok cfg := h
    by_cases hlen : c.frags.length < 1
    · rw [if_pos hlen] at h; exact absurd h (by simp)
    · rw [if_neg hlen] at h
      have hdef : ∀ f ∈ set_config_defaults.frags, f.name ≠ [] := by
        have he : set_config_defaults.frags = [] := by with_unfolding_all rfl
        rw [he]
        intro f hf
        exact absurd hf (by simp)
      have hcur0 : ∀ l, (next_line ⟨none, lines⟩).cur = some l → quoteChar ∉ l :=
        next_line_cur_QF none hqf
      have hrest0 : ∀ l ∈ (next_line ⟨none, lines⟩).rest, quoteChar ∉ l :=
        fun l hl => hqf l (next_line_rest_subset none lines l hl)
      have hn := runF_names_nonempty _ set_config_defaults _ hdef hcur0 hrest0 c hr
      rw [← Except.ok.inj h]
      intro f hfm
      have hfm : f ∈ c.frags.map (fun f =>
          { f with coord :=
            scale_list (n_convert c.coord_type) c.units_factor f.coord }) := hfm
      obtain ⟨f₀, hf₀, rfl⟩ := List.mem_map.mp hfm
      exact hn f₀ hf₀

/-- The raw record parsed from the C3 witness file. -/
def c3_raw_config : Config :=
  { set_config_defaults with
    frags := [⟨toL "w", write_vals (List.replicate 12 0) 0 [1, 2, 3, 4, 5, 6],
      List.replicate 6 0⟩] }

/-- The single fragment of the converted C3 witness configuration. -/
def c3_frag_example : Frag :=
  ⟨toL "w",
    scale_list 3 (1 / BOHR_RADIUS)
      (write_vals (List.replicate 12 0) 0 [1, 2, 3, 4, 5, 6]),
    List.replicate 6 0⟩

/-- Witness for the amended C3 on a quote-free single-fragment file. -/
theorem c3_names_nonempty_amended_witness : c3_frag_example.name ≠ [] := by
  have h := c3_names_nonempty_amended [toL "fragment w", toL "1 2 3 4 5 6"]
    (convert_units c3_raw_config) (by decide) (by with_unfolding_all rfl)
  apply h
  have hl : (convert_units c3_raw_config).frags = [c3_frag_example] := by
    with_unfolding_all rfl
  rw [hl]
  exact List.mem_singleton.mpr rfl
